import Mathlib

/-!
Verification of the Lolipop ancestry-inference core.

The embedding follows `src/muller/inheritance/genotype_lineage.py`,
`src/muller/inheritance/order.py` and `src/muller/muller_workflow.py`.
Two collaborators of the lineage workflow are declared and called there but
their modules (`scoring.py`, `genotype_ancestry.py` / `cluster.py`) are not
part of the source tree; those are modelled from the specification, as marked
in their doc comments.

A genotype table row is a label together with the frequency trajectory of the
genotype at the (aligned) timepoints; a sorted table is a list of rows with
row 0 as the designated root.
-/

set_option autoImplicit false

namespace Lolipop

abbrev Row : Type := String × List ℚ

abbrev Table : Type := List Row

/-- The per-pair score breakdown returned by `scoring.Score.score_pair`
(the dictionary with keys additive / derivative / area / totalScore). -/
structure ScoreData where
  additive : ℚ
  derivative : ℚ
  area : ℚ
  totalScore : ℚ
deriving DecidableEq

/-- One candidate edge recorded in the ancestry graph:
(descendant label, candidate-ancestor label, priority). -/
structure Edge where
  src : String
  dst : String
  pri : ℚ
deriving DecidableEq

/-- The failure modes of the core (spec section 7 taxonomy). -/
inductive Err where
  | missingRoot
  | invalidReference
  | unknownLabel
  | unknownGenotype
  | dimensionMismatch
deriving DecidableEq

/-- Modelled from the spec: `scoring.Score.score_pair` (`scoring.py` is not
under `src/`).  The caller-facing contract (spec section 4.1): inputs must be
aligned on the same timepoints, otherwise a dimension-mismatch error; the
timepoints where either trajectory is at or below the detection limit are
excluded; if fewer than two shared timepoints remain the components are all
zero; otherwise the three components are computed by formulas the spec leaves
open, abstracted here as the parameter `core` (which also absorbs the fixed
limit, the cutoffs and the pvalue threshold of the real scorer). -/
def score_pair (core : List (ℚ × ℚ) → ScoreData) (dlimit : ℚ)
    (background descendant : List ℚ) : Except Err ScoreData :=
  if background.length ≠ descendant.length then .error .dimensionMismatch
  else
    let shared := (background.zip descendant).filter
      (fun p => decide (dlimit < p.1 ∧ dlimit < p.2))
    if shared.length < 2 then .ok ⟨0, 0, 0, 0⟩
    else .ok (core shared)

/-- The value `score_pair` returns on aligned inputs (the non-error branch). -/
def scorePairOk (core : List (ℚ × ℚ) → ScoreData) (dlimit : ℚ)
    (background descendant : List ℚ) : ScoreData :=
  let shared := (background.zip descendant).filter
    (fun p => decide (dlimit < p.1 ∧ dlimit < p.2))
  if shared.length < 2 then ⟨0, 0, 0, 0⟩
  else core shared

/-- Modelled from the spec: the `Ancestry` graph of
`genotype_ancestry.py` (not under `src/`; `cluster.py`, the identical
structure used by `order.py`, is missing as well).  Spec section 4.2: a
per-genotype ordered list of candidate edges with priorities; constructed
with the root row and the sorted table. -/
structure Ancestry where
  rootLabel : String
  tableLabels : List String
  nests : List Edge
deriving DecidableEq

/-- `Ancestry(initial_background, timepoints = sorted_genotypes)`:
initialized with the root genotype having no parent (spec section 4.2). -/
def Ancestry.new (root : String) (labels : List String) : Ancestry :=
  ⟨root, labels, []⟩

/-- Modelled from the spec: `add_genotype_to_background` appends a candidate
edge; fails with an invalid-reference error if the genotype equals the
candidate background (spec section 4.2), and with an unknown-label error if a
label does not exist in the sorted table (spec sections 6 and 7: an
unknown-label reference in a manual override is an error surfaced to the
caller, not silently ignored). -/
def Ancestry.add_genotype_to_background (anc : Ancestry) (genotype candidate : String)
    (priority : ℚ) : Except Err Ancestry :=
  if genotype = candidate then .error .invalidReference
  else if genotype ∈ anc.tableLabels ∧ candidate ∈ anc.tableLabels then
    .ok { anc with nests := anc.nests ++ [⟨genotype, candidate, priority⟩] }
  else .error .unknownLabel

/-- The earliest candidate of maximum priority in a candidate list: the fold
replaces the current best only on a strictly greater priority, so insertion
order breaks ties (spec section 4.2). -/
def bestEdge : List Edge → Option Edge
  | [] => none
  | e :: rest => some (rest.foldl (fun b x => if b.pri < x.pri then x else b) e)

/-- Modelled from the spec: `get_highest_priority` returns the
candidate-background label of maximum priority, earliest recorded on ties;
fails with an unknown-genotype error when the genotype has no recorded
candidates and is not the root (spec section 4.2). -/
def Ancestry.get_highest_priority (anc : Ancestry) (genotype : String) : Except Err String :=
  match bestEdge (anc.nests.filter (fun e => e.src = genotype)) with
  | some e => .ok e.dst
  | none =>
    if genotype = anc.rootLabel then .ok anc.rootLabel
    else .error .unknownGenotype

/-- The total function behind `get_highest_priority` on its non-error domain. -/
def Ancestry.bestTarget (anc : Ancestry) (genotype : String) : String :=
  match bestEdge (anc.nests.filter (fun e => e.src = genotype)) with
  | some e => e.dst
  | none => anc.rootLabel

/-- Helper of `as_dict`: call `get_highest_priority` for each listed genotype,
propagating the first failure. -/
def collectDict (anc : Ancestry) : List String → Except Err (List (String × String))
  | [] => .ok []
  | g :: rest =>
    match anc.get_highest_priority g with
    | .error e => .error e
    | .ok p =>
      match collectDict anc rest with
      | .error e => .error e
      | .ok m => .ok ((g, p) :: m)

/-- Modelled from the spec: `as_dict` flattens the graph by calling
`get_highest_priority` for every non-root genotype of the sorted table, the
root being absent from the mapping (spec section 4.2 and section 6). -/
def Ancestry.as_dict (anc : Ancestry) : Except Err (List (String × String)) :=
  collectDict anc (anc.tableLabels.filter (fun l => decide (l ≠ anc.rootLabel)))

/-- `LineageWorkflow.add_known_lineages` (genotype_lineage.py lines 40-46):
for each user-declared (identity, parent) pair, in order, record
(parent -> "genotype-0") and then (identity -> parent), both at the dummy
priority 100.  On an error the partially extended graph is kept. -/
def injectAll (anc : Ancestry) : List (String × String) → Ancestry × Option Err
  | [] => (anc, none)
  | (identity, parent) :: rest =>
    match anc.add_genotype_to_background parent "genotype-0" 100 with
    | .error e => (anc, some e)
    | .ok a1 =>
      match a1.add_genotype_to_background identity parent 100 with
      | .error e => (a1, some e)
      | .ok a2 => injectAll a2 rest

/-- `sorted_genotypes[:unnested_label]`: the pandas label slice keeping the
rows up to and including the first row carrying the given label. -/
def sliceUpToIncl (lab : String) : Table → Table
  | [] => []
  | r :: rs => if r.1 = lab then [r] else r :: sliceUpToIncl lab rs

/-- The inner loop of the sweep (genotype_lineage.py lines 75-79): walk the
reversed slice, skip the row equal to the genotype being nested, score the
pair, append the breakdown to the diagnostic records, and record the edge
with the total score as priority.  On an error the state reached so far is
returned (the record of a failing add is already appended, as in the
source where the append precedes the add). -/
def sweepInner (core : List (ℚ × ℚ) → ScoreData) (dlimit : ℚ) (unnested : Row)
    (anc : Ancestry) (recs : List ScoreData) :
    List Row → Ancestry × List ScoreData × Option Err
  | [] => (anc, recs, none)
  | nested :: rest =>
    if nested.1 = unnested.1 then sweepInner core dlimit unnested anc recs rest
    else
      match score_pair core dlimit nested.2 unnested.2 with
      | .error e => (anc, recs, some e)
      | .ok sd =>
        match anc.add_genotype_to_background unnested.1 nested.1 sd.totalScore with
        | .error e => (anc, recs ++ [sd], some e)
        | .ok a2 => sweepInner core dlimit unnested a2 (recs ++ [sd]) rest

/-- The outer loop of the sweep (genotype_lineage.py lines 72-79, identically
order.py lines 50-63): iterate the table rows after the root in ascending
order; for each, run the inner loop on the reversed inclusive label slice. -/
def sweepOuter (core : List (ℚ × ℚ) → ScoreData) (dlimit : ℚ) (tbl : Table)
    (anc : Ancestry) (recs : List ScoreData) :
    List Row → Ancestry × List ScoreData × Option Err
  | [] => (anc, recs, none)
  | unnested :: rest =>
    match sweepInner core dlimit unnested anc recs ((sliceUpToIncl unnested.1 tbl).reverse) with
    | (a2, r2, none) => sweepOuter core dlimit tbl a2 r2 rest
    | out => out

/-- `LineageWorkflow.show_ancestry`: query `get_highest_priority` for every
row label of the sorted table (the logging itself is elided; only the
possible failure is kept). -/
def showAncestry (anc : Ancestry) : List String → Option Err
  | [] => none
  | g :: rest =>
    match anc.get_highest_priority g with
    | .error e => some e
    | .ok _ => showAncestry anc rest

/-- Everything one call of `LineageWorkflow.run` does to the instance:
the `Ancestry` object assigned to `genotype_nests` (`none` when the run
failed before the assignment), the score records appended this run, and the
first raised error if any. -/
structure RunResult where
  nests : Option Ancestry
  records : List ScoreData
  err : Option Err
deriving DecidableEq

/-- `LineageWorkflow.run` (genotype_lineage.py lines 56-87): take row 0 as the
initial background (an empty table fails with the missing-root error before
anything is recorded), build a fresh `Ancestry`, inject the known lineages,
run the automatic sweep over the remaining rows, then query the final
ancestry of every row (`show_ancestry`). -/
def runE (core : List (ℚ × ℚ) → ScoreData) (dlimit : ℚ) (tbl : Table)
    (ov : List (String × String)) : RunResult :=
  match tbl with
  | [] => ⟨none, [], some .missingRoot⟩
  | r0 :: rest =>
    let anc0 := Ancestry.new r0.1 ((r0 :: rest).map Prod.fst)
    match injectAll anc0 ov with
    | (a1, some e) => ⟨some a1, [], some e⟩
    | (a1, none) =>
      match sweepOuter core dlimit (r0 :: rest) a1 [] rest with
      | (a2, recs, some e) => ⟨some a2, recs, some e⟩
      | (a2, recs, none) =>
        match showAncestry a2 ((r0 :: rest).map Prod.fst) with
        | some e => ⟨some a2, recs, some e⟩
        | none => ⟨some a2, recs, none⟩

/-- `lineage.run(table, known_ancestry).as_dict()`: the flattened parent
mapping of a completed run. -/
def runMappingE (core : List (ℚ × ℚ) → ScoreData) (dlimit : ℚ) (tbl : Table)
    (ov : List (String × String)) : Except Err (List (String × String)) :=
  match runE core dlimit tbl ov with
  | ⟨some anc, _, none⟩ => anc.as_dict
  | ⟨_, _, some e⟩ => .error e
  | ⟨none, _, none⟩ => .error .missingRoot

/-- The mutable state of a `LineageWorkflow` instance
(genotype_lineage.py lines 29-37). -/
structure LineageWorkflow where
  dlimit : ℚ
  flimit : ℚ
  pvalue : ℚ
  debug : Bool
  genotype_nests : Option Ancestry
  score_records : List ScoreData
deriving DecidableEq

/-- `LineageWorkflow.__init__`: `genotype_nests` starts unset and
`score_records` is created once, as the empty list. -/
def LineageWorkflow.new (dlimit flimit pvalue : ℚ) (debug : Bool) : LineageWorkflow :=
  ⟨dlimit, flimit, pvalue, debug, none, []⟩

/-- One call of `LineageWorkflow.run` acting on the instance state:
`genotype_nests` is replaced by the freshly built `Ancestry` (when the run
got as far as building it), and the new score records are appended to the
never-cleared `score_records` list. -/
def LineageWorkflow.run (core : List (ℚ × ℚ) → ScoreData) (w : LineageWorkflow)
    (tbl : Table) (ov : List (String × String)) : LineageWorkflow × Option Err :=
  let r := runE core w.dlimit tbl ov
  (⟨w.dlimit, w.flimit, w.pvalue, w.debug,
    (match r.nests with | some a => some a | none => w.genotype_nests),
    w.score_records ++ r.records⟩, r.err)

/-! Spec-side descriptions used by the refinement claims: the candidate-edge
trace the specification prescribes for the automatic sweep and for the
manual-override injection. -/

/-- The candidate edges the spec prescribes for the manual-override injection
(spec section 4.3 step 2, with the literal label the source writes):
per declared (identity, parent) pair, exactly two edges at priority 100,
(parent -> "genotype-0") first, (identity -> parent) second. -/
def injTrace (ov : List (String × String)) : List Edge :=
  ov.flatMap (fun ip => [⟨ip.2, "genotype-0", 100⟩, ⟨ip.1, ip.2, 100⟩])

/-- Spec-side description of the automatic sweep (spec section 4.3 step 3),
with `pre` the rows before the current one in table order: for each remaining
genotype in ascending table order, one candidate edge per previously seen
genotype, visited in descending table position (reverse of the prefix),
never against itself, with the pair's total score as priority. -/
def autoTraceAux (core : List (ℚ × ℚ) → ScoreData) (dlimit : ℚ)
    (pre : Table) : Table → List Edge
  | [] => []
  | r :: rest =>
    pre.reverse.map (fun q => ⟨r.1, q.1, (scorePairOk core dlimit q.2 r.2).totalScore⟩)
      ++ autoTraceAux core dlimit (pre ++ [r]) rest

/-- The full automatic-sweep edge trace of a sorted table. -/
def autoTrace (core : List (ℚ × ℚ) → ScoreData) (dlimit : ℚ) : Table → List Edge
  | [] => []
  | r0 :: rest => autoTraceAux core dlimit [r0] rest

/-- The diagnostic score records the sweep appends, in sweep order. -/
def autoRecordsAux (core : List (ℚ × ℚ) → ScoreData) (dlimit : ℚ)
    (pre : Table) : Table → List ScoreData
  | [] => []
  | r :: rest =>
    pre.reverse.map (fun q => scorePairOk core dlimit q.2 r.2)
      ++ autoRecordsAux core dlimit (pre ++ [r]) rest

/-- The full diagnostic record trace of a sorted table. -/
def autoRecords (core : List (ℚ × ℚ) → ScoreData) (dlimit : ℚ) : Table → List ScoreData
  | [] => []
  | r0 :: rest => autoRecordsAux core dlimit [r0] rest

/-- The edges one genotype's inner sweep records against a candidate list. -/
def sweepBlock (core : List (ℚ × ℚ) → ScoreData) (dlimit : ℚ) (u : Row) (M : List Row) :
    List Edge :=
  M.map (fun q => ⟨u.1, q.1, (scorePairOk core dlimit q.2 u.2).totalScore⟩)

/-- The records one genotype's inner sweep appends against a candidate list. -/
def sweepBlockRecs (core : List (ℚ × ℚ) → ScoreData) (dlimit : ℚ) (u : Row) (M : List Row) :
    List ScoreData :=
  M.map (fun q => scorePairOk core dlimit q.2 u.2)

/-! The command-line workflow front end (muller_workflow.py). -/

/-- `ACCEPTED_METHODS` (muller_workflow.py line 21). -/
def ACCEPTED_METHODS : List String := ["matlab", "hierarchy"]

/-- The caller-supplied options of `parse_workflow_options`, restricted to the
fields that steer its control flow. -/
structure ProgramOptions where
  method : String
  mode : Bool
  detection_breakpoint : ℚ
  fixed_breakpoint : Option ℚ
deriving DecidableEq

/-- A raised Python exception. -/
inductive PyErr where
  | valueError (msg : String)
deriving DecidableEq

/-- `parse_workflow_options` (muller_workflow.py lines 51-84): default the
fixed breakpoint to one minus the detection breakpoint, build the per-stage
option objects (their construction cannot fail and is elided), and raise a
`ValueError` naming the method when it is not an accepted method.  The real
message interpolates the accepted list through the Python list repr, which
renders each name inside quote characters; the quote characters are elided
here. -/
def parse_workflow_options (opts : ProgramOptions) : Except PyErr ProgramOptions :=
  let opts2 : ProgramOptions :=
    { opts with fixed_breakpoint := some (opts.fixed_breakpoint.getD (1 - opts.detection_breakpoint)) }
  if opts2.method ∈ ACCEPTED_METHODS then .ok opts2
  else .error (.valueError (opts2.method ++ " is not a valid option for the --method option. Expected one of [matlab, hierarchy]"))

/-- `workflow` (muller_workflow.py lines 87-106): parse the options first;
only then import, sort and nest the genotypes.  Import and sort are excluded
collaborators (spec section 1) and are elided: the function receives the
already sorted table and the nesting step is the lineage run.  The second
component is the list of pair-score records produced; it is empty whenever
the run aborts before any pair is scored. -/
def workflow (core : List (ℚ × ℚ) → ScoreData) (opts : ProgramOptions)
    (sorted_tbl : Table) : Except PyErr (Option Ancestry) × List ScoreData :=
  match parse_workflow_options opts with
  | .error e => (.error e, [])
  | .ok opts2 =>
    let r := runE core opts2.detection_breakpoint sorted_tbl []
    (.ok r.nests, r.records)

/-! Concrete fixtures used by witness and counterexample theorems.  All
frequencies are integral rationals so that every evaluation kernel-reduces. -/

/-- A concrete instantiation of the abstract scoring core: every pair of
trajectories with enough shared data scores ⟨1, 0, 0, 1⟩. -/
def core0 : List (ℚ × ℚ) → ScoreData := fun _ => ⟨1, 0, 0, 1⟩

/-- A conventional three-row table: the root labeled genotype-0 in row 0. -/
def tblA : Table :=
  [("genotype-0", [9, 9, 9]), ("genotype-1", [1, 2, 3]), ("genotype-2", [1, 1, 2])]

/-- A table whose designated root (row 0) does not carry the conventional
label genotype-0; a genotype named genotype-0 sits at position 1. -/
def tblW : Table :=
  [("wt", [9, 9, 9]), ("genotype-0", [1, 2, 3]), ("B", [1, 1, 2])]

/-- A four-row variant of `tblW` with two further genotypes. -/
def tblW4 : Table :=
  [("wt", [9, 9, 9]), ("genotype-0", [1, 2, 3]), ("A", [1, 1, 2]), ("B", [1, 1, 1])]

/-- The flattened mapping of the cycle counterexample run: the table `tblW`
with the manual override assigning parent B to the genotype labeled
genotype-0. -/
def mapW : List (String × String) :=
  (runMappingE core0 0 tblW [("genotype-0", "B")]).toOption.getD []

/-- The flattened mapping of the run of `tblW4` with override A -> B. -/
def mapW4 : List (String × String) :=
  (runMappingE core0 0 tblW4 [("A", "B")]).toOption.getD []

/-- The flattened mapping of the run of `tblA` with the override declaring a
parent for the root itself. -/
def mapAroot : List (String × String) :=
  (runMappingE core0 0 tblA [("genotype-0", "genotype-2")]).toOption.getD []

/-- The flattened mapping of the plain run of `tblA` without overrides. -/
def mapA : List (String × String) :=
  (runMappingE core0 0 tblA []).toOption.getD []

/-- The candidate edges recorded by the run of `tblW4` with override A -> B. -/
def nestsW4 : List Edge :=
  ((runE core0 0 tblW4 [("A", "B")]).nests.getD (Ancestry.new "" [])).nests

/-- Iterating the flattened parent mapping: one step follows the recorded
parent, absent keys (the root) stay put. -/
def iterFrom (m : List (String × String)) (g : String) : ℕ → String
  | 0 => g
  | t + 1 =>
    match m.lookup (iterFrom m g t) with
    | some p => p
    | none => iterFrom m g t

/-- The target of the first injected candidate edge whose source is `g`,
if the manual overrides inject any edge for `g`. -/
def firstInjTarget (ov : List (String × String)) (g : String) : Option String :=
  (((injTrace ov).filter (fun e => e.src = g)).head?).map Edge.dst

/-- The position of the first injected edge with source `g` in the injection
trace, counted in pairs-of-edges resolution. -/
def injDepth : List (String × String) → String → ℕ
  | [], _ => 0
  | (identity, parent) :: rest, g =>
    if g = parent then 0
    else if g = identity then 1
    else 2 + injDepth rest g

/-- The position of the first occurrence of a label in the table's label
list. -/
def posOf (g : String) : List String → ℕ
  | [] => 0
  | l :: ls => if l = g then 0 else posOf g ls + 1

/-- The termination measure for chains of the flattened mapping: genotypes
with an injected edge are measured by the position of their first injected
edge; the rest by their table position, shifted above every injection
measure. -/
def mu (ov : List (String × String)) (labels : List String) (g : String) : ℕ :=
  if (firstInjTarget ov g).isSome then injDepth ov g
  else 2 * ov.length + 1 + posOf g labels

/-! ### Helper lemmas -/

/-- The fold behind `bestEdge` lands on an element that realizes the maximum
priority and is preceded only by strictly smaller priorities. -/
theorem foldl_best_decomp :
    ∀ (rest : List Edge) (a : Edge),
      ∃ pre post,
        a :: rest = pre ++ (List.foldl (fun b x => if b.pri < x.pri then x else b) a rest) :: post ∧
        (∀ x ∈ a :: rest, x.pri ≤ (List.foldl (fun b x => if b.pri < x.pri then x else b) a rest).pri) ∧
        (∀ x ∈ pre, x.pri < (List.foldl (fun b x => if b.pri < x.pri then x else b) a rest).pri)
  | [], a => ⟨[], [], rfl, by simp, by simp⟩
  | x :: rest, a => by
    obtain ⟨pre, post, hdec, hmax, hstrict⟩ := foldl_best_decomp rest (if a.pri < x.pri then x else a)
    simp only [List.foldl_cons]
    by_cases hcmp : a.pri < x.pri
    · rw [if_pos hcmp] at hdec hmax hstrict ⊢
      refine ⟨a :: pre, post, by rw [List.cons_append, ← hdec], ?_, ?_⟩
      · intro y hy
        rcases List.mem_cons.mp hy with rfl | h
        · exact le_of_lt (lt_of_lt_of_le hcmp (hmax x (List.mem_cons_self x rest)))
        · exact hmax y h
      · intro y hy
        rcases List.mem_cons.mp hy with rfl | h
        · exact lt_of_lt_of_le hcmp (hmax x (List.mem_cons_self x rest))
        · exact hstrict y h
    · rw [if_neg hcmp] at hdec hmax hstrict ⊢
      have hxle : x.pri ≤ a.pri := le_of_not_lt hcmp
      cases pre with
      | nil =>
        obtain ⟨hea, hrest⟩ := List.cons_eq_cons.mp hdec
        refine ⟨[], x :: post, ?_, ?_, by simp⟩
        · rw [List.nil_append, ← hea, ← hrest]
        · intro y hy
          rcases List.mem_cons.mp hy with rfl | h
          · exact hmax y (List.mem_cons_self y rest)
          · rcases List.mem_cons.mp h with rfl | h2
            · exact le_trans hxle (hmax a (List.mem_cons_self a rest))
            · exact hmax y (List.mem_cons_of_mem a h2)
      | cons p pre2 =>
        rw [List.cons_append] at hdec
        obtain ⟨hap, hrest⟩ := List.cons_eq_cons.mp hdec
        subst hap
        have hastrict : a.pri < (List.foldl (fun b x => if b.pri < x.pri then x else b) a rest).pri :=
          hstrict a (List.mem_cons_self a pre2)
        refine ⟨a :: x :: pre2, post, ?_, ?_, ?_⟩
        · rw [List.cons_append, List.cons_append, ← hrest]
        · intro y hy
          rcases List.mem_cons.mp hy with rfl | h
          · exact le_of_lt hastrict
          · rcases List.mem_cons.mp h with rfl | h2
            · exact le_of_lt (lt_of_le_of_lt hxle hastrict)
            · exact hmax y (List.mem_cons_of_mem a h2)
        · intro y hy
          rcases List.mem_cons.mp hy with rfl | h
          · exact hastrict
          · rcases List.mem_cons.mp h with rfl | h2
            · exact lt_of_le_of_lt hxle hastrict
            · exact hstrict y (List.mem_cons_of_mem a h2)

/-- `bestEdge` of a nonempty candidate list is the earliest candidate of
maximum priority. -/
theorem bestEdge_decomp (l : List Edge) (hl : l ≠ []) :
    ∃ e pre post, bestEdge l = some e ∧ l = pre ++ e :: post ∧
      (∀ x ∈ l, x.pri ≤ e.pri) ∧ (∀ x ∈ pre, x.pri < e.pri) := by
  cases l with
  | nil => exact absurd rfl hl
  | cons a rest =>
    obtain ⟨pre, post, hdec, hmax, hstrict⟩ := foldl_best_decomp rest a
    exact ⟨_, pre, post, rfl, hdec, hmax, hstrict⟩

/-- A fold that never sees a strictly larger priority keeps its start. -/
theorem foldl_best_keep :
    ∀ (rest : List Edge) (a : Edge), (∀ x ∈ rest, x.pri ≤ a.pri) →
      List.foldl (fun b x => if b.pri < x.pri then x else b) a rest = a
  | [], _, _ => rfl
  | x :: rest, a, h => by
    have hx : ¬a.pri < x.pri := not_lt_of_le (h x (List.mem_cons_self x rest))
    rw [List.foldl_cons, if_neg hx]
    exact foldl_best_keep rest a (fun y hy => h y (List.mem_cons_of_mem x hy))

/-- When the head of the candidate list already realizes the maximum
priority, `bestEdge` returns it: insertion order wins ties. -/
theorem bestEdge_keep (a : Edge) (rest : List Edge) (h : ∀ x ∈ rest, x.pri ≤ a.pri) :
    bestEdge (a :: rest) = some a := by
  rw [bestEdge, foldl_best_keep rest a h]

/-- Characterization of a successful `add_genotype_to_background`. -/
theorem add_ok {anc anc2 : Ancestry} {g c : String} {pri : ℚ}
    (h : anc.add_genotype_to_background g c pri = .ok anc2) :
    g ≠ c ∧ g ∈ anc.tableLabels ∧ c ∈ anc.tableLabels ∧
    anc2 = { anc with nests := anc.nests ++ [⟨g, c, pri⟩] } := by
  unfold Ancestry.add_genotype_to_background at h
  split at h
  · cases h
  · rename_i hne
    split at h
    · rename_i hmem
      cases h
      exact ⟨hne, hmem.1, hmem.2, rfl⟩
    · cases h

/-- `add_genotype_to_background` succeeds exactly on a non-self edge between
table labels. -/
theorem add_succeeds {anc : Ancestry} {g c : String} (pri : ℚ)
    (hne : g ≠ c) (hg : g ∈ anc.tableLabels) (hc : c ∈ anc.tableLabels) :
    anc.add_genotype_to_background g c pri =
      .ok { anc with nests := anc.nests ++ [⟨g, c, pri⟩] } := by
  unfold Ancestry.add_genotype_to_background
  rw [if_neg hne, if_pos ⟨hg, hc⟩]

/-- Unfolding of the injection trace on one declared pair. -/
theorem injTrace_cons (i p : String) (rest : List (String × String)) :
    injTrace ((i, p) :: rest) =
      ⟨p, "genotype-0", 100⟩ :: ⟨i, p, 100⟩ :: injTrace rest := rfl

/-- Every injected edge carries the dummy priority 100. -/
theorem injTrace_pri : ∀ (ov : List (String × String)), ∀ e ∈ injTrace ov, e.pri = 100
  | [], e, he => absurd he (by simp [injTrace])
  | (i, p) :: rest, e, he => by
    rw [injTrace_cons] at he
    rcases List.mem_cons.mp he with h | h
    · rw [h]
    · rcases List.mem_cons.mp h with h2 | h2
      · rw [h2]
      · exact injTrace_pri rest e h2

/-- Structure of a successful manual-override injection: the graph is
extended by exactly the injection trace, the root and the label table are
untouched, and every injected edge is a non-self edge between table labels. -/
theorem injectAll_ok :
    ∀ (ov : List (String × String)) (anc anc2 : Ancestry),
      injectAll anc ov = (anc2, none) →
      anc2.rootLabel = anc.rootLabel ∧ anc2.tableLabels = anc.tableLabels ∧
      anc2.nests = anc.nests ++ injTrace ov ∧
      (∀ e ∈ injTrace ov, e.src ≠ e.dst ∧ e.src ∈ anc.tableLabels ∧ e.dst ∈ anc.tableLabels)
  | [], anc, anc2, h => by
    rw [injectAll] at h
    cases h
    exact ⟨rfl, rfl, by simp [injTrace], by simp [injTrace]⟩
  | (i, p) :: rest, anc, anc2, h => by
    rw [injectAll] at h
    split at h
    · simp at h
    · rename_i a1 h1
      split at h
      · simp at h
      · rename_i a2 h2
        obtain ⟨hpne, hpmem, hgmem, ha1⟩ := add_ok h1
        obtain ⟨hine, himem, hpmem2, ha2⟩ := add_ok h2
        obtain ⟨hroot, hlab, hnests, hfacts⟩ := injectAll_ok rest a2 anc2 h
        have hl1 : a1.tableLabels = anc.tableLabels := by rw [ha1]
        have hl2 : a2.tableLabels = anc.tableLabels := by rw [ha2, hl1]
        have hr1 : a1.rootLabel = anc.rootLabel := by rw [ha1]
        have hr2 : a2.rootLabel = anc.rootLabel := by rw [ha2, hr1]
        refine ⟨hroot.trans hr2, hlab.trans hl2, ?_, ?_⟩
        · rw [hnests, ha2, ha1, injTrace_cons]
          simp
        · intro e he
          rw [injTrace_cons] at he
          rcases List.mem_cons.mp he with hh | hh
          · exact hh ▸ ⟨hpne, hpmem, hgmem⟩
          · rcases List.mem_cons.mp hh with hh2 | hh2
            · exact hh2 ▸ ⟨hine, hl1 ▸ himem, hl1 ▸ hpmem2⟩
            · have := hfacts e hh2
              exact ⟨this.1, hl2 ▸ this.2.1, hl2 ▸ this.2.2⟩

/-- On aligned trajectories `score_pair` does not fail and returns the value
of the non-error branch. -/
theorem score_pair_eq_ok (core : List (ℚ × ℚ) → ScoreData) (dlimit : ℚ)
    (a b : List ℚ) (h : a.length = b.length) :
    score_pair core dlimit a b = .ok (scorePairOk core dlimit a b) := by
  unfold score_pair scorePairOk
  rw [if_neg (by simp [h])]
  dsimp only
  split <;> rfl

/-- The inner sweep skips the row labeled like the genotype being nested. -/
theorem sweepInner_skip (core : List (ℚ × ℚ) → ScoreData) (dlimit : ℚ) (u x : Row)
    (anc : Ancestry) (recs : List ScoreData) (M : List Row) (hx : x.1 = u.1) :
    sweepInner core dlimit u anc recs (x :: M) = sweepInner core dlimit u anc recs M := by
  rw [sweepInner, if_pos hx]

/-- The inner sweep over rows all differing from the nested genotype records
one scored edge per row, in list order. -/
theorem sweepInner_clean (core : List (ℚ × ℚ) → ScoreData) (dlimit : ℚ) (u : Row) :
    ∀ (M : List Row) (anc : Ancestry) (recs : List ScoreData),
      u.1 ∈ anc.tableLabels →
      (∀ q ∈ M, q.1 ≠ u.1 ∧ q.1 ∈ anc.tableLabels ∧ q.2.length = u.2.length) →
      sweepInner core dlimit u anc recs M =
        ({ anc with nests := anc.nests ++ sweepBlock core dlimit u M },
          recs ++ sweepBlockRecs core dlimit u M, none)
  | [], anc, recs, _, _ => by simp [sweepInner, sweepBlock, sweepBlockRecs]
  | q :: M, anc, recs, hu, hM => by
    obtain ⟨hne, hmem, hlen⟩ := hM q (List.mem_cons_self q M)
    have hadd := @add_succeeds anc u.1 q.1
      ((scorePairOk core dlimit q.2 u.2).totalScore) (Ne.symm hne) hu hmem
    rw [sweepInner, if_neg hne, score_pair_eq_ok core dlimit q.2 u.2 hlen]
    dsimp only
    rw [hadd]
    dsimp only
    rw [sweepInner_clean core dlimit u M
      { rootLabel := anc.rootLabel, tableLabels := anc.tableLabels,
        nests := anc.nests ++ [⟨u.1, q.1, (scorePairOk core dlimit q.2 u.2).totalScore⟩] }
      (recs ++ [scorePairOk core dlimit q.2 u.2]) hu
      (fun q2 hq2 => hM q2 (List.mem_cons_of_mem q hq2))]
    simp [sweepBlock, sweepBlockRecs]

/-- The pandas label slice of a table whose earlier rows all carry other
labels keeps exactly the prefix through the labeled row. -/
theorem sliceUpToIncl_spec (u : Row) :
    ∀ (pre suf : Table), (∀ q ∈ pre, q.1 ≠ u.1) →
      sliceUpToIncl u.1 (pre ++ u :: suf) = pre ++ [u]
  | [], suf, _ => by simp [sliceUpToIncl]
  | q :: pre, suf, h => by
    rw [List.cons_append, sliceUpToIncl, if_neg (h q (List.mem_cons_self q pre)),
      sliceUpToIncl_spec u pre suf (fun q2 hq2 => h q2 (List.mem_cons_of_mem q hq2))]
    rfl

/-- The outer sweep over the rows after the root produces exactly the
spec-side edge trace and record trace, in order, and does not fail. -/
theorem sweepOuter_clean (core : List (ℚ × ℚ) → ScoreData) (dlimit : ℚ) (tbl : Table) :
    ∀ (rest pre : Table) (anc : Ancestry) (recs : List ScoreData),
      tbl = pre ++ rest →
      (tbl.map Prod.fst).Nodup →
      anc.tableLabels = tbl.map Prod.fst →
      (∀ q ∈ tbl, ∀ r2 ∈ tbl, q.2.length = r2.2.length) →
      sweepOuter core dlimit tbl anc recs rest =
        ({ anc with nests := anc.nests ++ autoTraceAux core dlimit pre rest },
          recs ++ autoRecordsAux core dlimit pre rest, none)
  | [], pre, anc, recs, _, _, _, _ => by simp [sweepOuter, autoTraceAux, autoRecordsAux]
  | r :: rest', pre, anc, recs, htbl, hnd, hlab, hrect => by
    have hprene : ∀ q ∈ pre, q.1 ≠ r.1 := by
      intro q hq hqr
      have hnd2 := hnd
      rw [htbl, List.map_append] at hnd2
      exact (List.nodup_append.mp hnd2).2.2
        (List.mem_map_of_mem Prod.fst hq) (by rw [hqr, List.map_cons]; exact List.mem_cons_self _ _)
    have hslice : sliceUpToIncl r.1 tbl = pre ++ [r] := by
      rw [htbl]; exact sliceUpToIncl_spec r pre rest' hprene
    have hmemtbl : ∀ q ∈ pre, q ∈ tbl := fun q hq => htbl ▸ List.mem_append_left _ hq
    have hrtbl : r ∈ tbl := htbl ▸ List.mem_append_right _ (List.mem_cons_self r rest')
    rw [sweepOuter, hslice]
    have hrev : (pre ++ [r]).reverse = r :: pre.reverse := by simp
    rw [hrev, sweepInner_skip core dlimit r r anc recs pre.reverse rfl,
      sweepInner_clean core dlimit r pre.reverse anc recs
        (hlab ▸ List.mem_map_of_mem Prod.fst hrtbl)
        (by
          intro q hq
          have hqpre : q ∈ pre := List.mem_reverse.mp hq
          exact ⟨hprene q hqpre, hlab ▸ List.mem_map_of_mem Prod.fst (hmemtbl q hqpre),
            hrect q (hmemtbl q hqpre) r hrtbl⟩)]
    dsimp only
    rw [sweepOuter_clean core dlimit tbl rest' (pre ++ [r]) _ _
      (by rw [htbl, List.append_assoc]; rfl) hnd (by exact hlab) hrect]
    rw [autoTraceAux, autoRecordsAux]
    simp [sweepBlock, sweepBlockRecs]

/-- `get_highest_priority` answers through `bestTarget` whenever the genotype
has recorded candidates or is the root. -/
theorem get_highest_eq_bestTarget (anc : Ancestry) (g : String)
    (h : anc.nests.filter (fun e2 => e2.src = g) ≠ [] ∨ g = anc.rootLabel) :
    anc.get_highest_priority g = .ok (anc.bestTarget g) := by
  unfold Ancestry.get_highest_priority Ancestry.bestTarget
  cases hb : bestEdge (anc.nests.filter (fun e2 => e2.src = g)) with
  | some e => rfl
  | none =>
    rcases h with h | h
    · obtain ⟨e, pre, post, hbe, _⟩ := bestEdge_decomp _ h
      rw [hbe] at hb
      cases hb
    · rw [if_pos h]

/-- `collectDict` succeeds and tabulates `bestTarget` when every queried
genotype has candidates or is the root. -/
theorem collectDict_ok (anc : Ancestry) :
    ∀ (L : List String),
      (∀ g ∈ L, anc.nests.filter (fun e2 => e2.src = g) ≠ [] ∨ g = anc.rootLabel) →
      collectDict anc L = .ok (L.map (fun g => (g, anc.bestTarget g)))
  | [], _ => rfl
  | g :: L, h => by
    rw [collectDict, get_highest_eq_bestTarget anc g (h g (List.mem_cons_self g L))]
    dsimp only
    rw [collectDict_ok anc L (fun g2 hg2 => h g2 (List.mem_cons_of_mem g hg2))]
    rfl

/-- `show_ancestry` raises nothing when every queried genotype has candidates
or is the root. -/
theorem showAncestry_ok (anc : Ancestry) :
    ∀ (L : List String),
      (∀ g ∈ L, anc.nests.filter (fun e2 => e2.src = g) ≠ [] ∨ g = anc.rootLabel) →
      showAncestry anc L = none
  | [], _ => rfl
  | g :: L, h => by
    rw [showAncestry, get_highest_eq_bestTarget anc g (h g (List.mem_cons_self g L))]
    exact showAncestry_ok anc L (fun g2 hg2 => h g2 (List.mem_cons_of_mem g hg2))

/-- Looking up a key present in a tabulated association list. -/
theorem lookup_map_self (f : String → String) :
    ∀ (L : List String) (g : String), g ∈ L →
      List.lookup g (L.map (fun x => (x, f x))) = some (f g)
  | [], g, h => absurd h (List.not_mem_nil g)
  | x :: L, g, h => by
    by_cases hgx : g = x
    · subst hgx
      simp [List.lookup]
    · rcases List.mem_cons.mp h with rfl | h2
      · exact absurd rfl hgx
      · rw [List.map_cons, List.lookup]
        have hb : (g == x) = false := beq_eq_false_iff_ne.mpr hgx
        rw [hb]
        exact lookup_map_self f L g h2

/-- Looking up a key absent from a tabulated association list. -/
theorem lookup_map_self_none (f : String → String) :
    ∀ (L : List String) (g : String), g ∉ L →
      List.lookup g (L.map (fun x => (x, f x))) = none
  | [], _, _ => rfl
  | x :: L, g, h => by
    have hgx : g ≠ x := fun hc => h (hc ▸ List.mem_cons_self x L)
    rw [List.map_cons, List.lookup]
    have hb : (g == x) = false := beq_eq_false_iff_ne.mpr hgx
    rw [hb]
    exact lookup_map_self_none f L g (fun hc => h (List.mem_cons_of_mem x hc))

/-- A failed injection step fails the whole run, keeping the partial graph
and no score records. -/
theorem runE_err_inject (core : List (ℚ × ℚ) → ScoreData) (dlimit : ℚ)
    (r0 : Row) (rest : Table) (ov : List (String × String)) (a1 : Ancestry) (e : Err)
    (hinj : injectAll (Ancestry.new r0.1 (List.map Prod.fst (r0 :: rest))) ov = (a1, some e)) :
    runE core dlimit (r0 :: rest) ov = ⟨some a1, [], some e⟩ := by
  rw [runE]
  rw [hinj]

/-- A successful injection determines the run result: the final graph holds
the injection trace followed by the automatic-sweep trace, the appended
records are the sweep records, and the only remaining failure source is the
final `show_ancestry` queries. -/
theorem runE_of_inject_ok (core : List (ℚ × ℚ) → ScoreData) (dlimit : ℚ)
    (r0 : Row) (rest : Table) (ov : List (String × String)) (a1 : Ancestry)
    (hnd : (List.map Prod.fst (r0 :: rest)).Nodup)
    (hrect : ∀ q ∈ (r0 :: rest), ∀ r2 ∈ (r0 :: rest), q.2.length = r2.2.length)
    (hinj : injectAll (Ancestry.new r0.1 (List.map Prod.fst (r0 :: rest))) ov = (a1, none)) :
    runE core dlimit (r0 :: rest) ov =
      ⟨some ⟨r0.1, List.map Prod.fst (r0 :: rest), injTrace ov ++ autoTrace core dlimit (r0 :: rest)⟩,
        autoRecords core dlimit (r0 :: rest),
        showAncestry ⟨r0.1, List.map Prod.fst (r0 :: rest), injTrace ov ++ autoTrace core dlimit (r0 :: rest)⟩
          (List.map Prod.fst (r0 :: rest))⟩ := by
  obtain ⟨hroot, hlab, hnests, _⟩ := injectAll_ok ov _ a1 hinj
  have ha1 : a1 = ⟨r0.1, List.map Prod.fst (r0 :: rest), injTrace ov⟩ := by
    cases a1
    simp only [Ancestry.new] at hroot hlab hnests
    simp_all
  rw [runE]
  rw [hinj]
  dsimp only
  rw [sweepOuter_clean core dlimit (r0 :: rest) rest [r0] a1 [] rfl hnd
    (by rw [ha1]) hrect]
  dsimp only
  rw [ha1]
  have htr : autoTraceAux core dlimit [r0] rest = autoTrace core dlimit (r0 :: rest) := rfl
  have hrec : autoRecordsAux core dlimit [r0] rest = autoRecords core dlimit (r0 :: rest) := rfl
  rw [htr, hrec]
  cases hs : showAncestry ⟨r0.1, List.map Prod.fst (r0 :: rest),
      injTrace ov ++ autoTrace core dlimit (r0 :: rest)⟩ (List.map Prod.fst (r0 :: rest)) with
  | some e2 => simp
  | none => simp

/-- One sweep step contributes the current genotype's block followed by the
rest of the trace. -/
theorem autoTraceAux_cons (core : List (ℚ × ℚ) → ScoreData) (dlimit : ℚ)
    (pre : Table) (r : Row) (rest : Table) :
    autoTraceAux core dlimit pre (r :: rest) =
      sweepBlock core dlimit r pre.reverse ++ autoTraceAux core dlimit (pre ++ [r]) rest := rfl

/-- Sources and targets of a sweep block. -/
theorem sweepBlock_src (core : List (ℚ × ℚ) → ScoreData) (dlimit : ℚ) (u : Row)
    (L : List Row) : ∀ e ∈ sweepBlock core dlimit u L, e.src = u.1 ∧ e.dst ∈ L.map Prod.fst := by
  intro e he
  obtain ⟨q, hq, rfl⟩ := List.mem_map.mp he
  exact ⟨rfl, List.mem_map_of_mem Prod.fst hq⟩

/-- Filtering a block at its own genotype keeps everything. -/
theorem sweepBlock_filter_self (core : List (ℚ × ℚ) → ScoreData) (dlimit : ℚ) (u : Row)
    (L : List Row) :
    (sweepBlock core dlimit u L).filter (fun e => e.src = u.1) = sweepBlock core dlimit u L := by
  apply List.filter_eq_self.mpr
  intro e he
  simp [(sweepBlock_src core dlimit u L e he).1]

/-- Filtering a block at another genotype drops everything. -/
theorem sweepBlock_filter_other (core : List (ℚ × ℚ) → ScoreData) (dlimit : ℚ) (u : Row)
    (L : List Row) (g : String) (hg : g ≠ u.1) :
    (sweepBlock core dlimit u L).filter (fun e => e.src = g) = [] := by
  apply List.filter_eq_nil_iff.mpr
  intro e he
  simp only [decide_eq_true_eq]
  rw [(sweepBlock_src core dlimit u L e he).1]
  exact fun hc => hg hc.symm

/-- Every source of the sweep trace is a label of a remaining row. -/
theorem autoTraceAux_src (core : List (ℚ × ℚ) → ScoreData) (dlimit : ℚ) :
    ∀ (rest pre : Table), ∀ e ∈ autoTraceAux core dlimit pre rest, e.src ∈ rest.map Prod.fst
  | [], pre, e, he => absurd he (by simp [autoTraceAux])
  | r :: rest, pre, e, he => by
    rw [autoTraceAux_cons] at he
    rcases List.mem_append.mp he with h | h
    · rw [List.map_cons, (sweepBlock_src core dlimit r pre.reverse e h).1]
      exact List.mem_cons_self _ _
    · rw [List.map_cons]
      exact List.mem_cons_of_mem _ (autoTraceAux_src core dlimit rest (pre ++ [r]) e h)

/-- Filtering the sweep trace at one genotype isolates that genotype's block:
its previously seen rows, most recent first. -/
theorem autoTraceAux_filter (core : List (ℚ × ℚ) → ScoreData) (dlimit : ℚ) (u : Row) :
    ∀ (mid suf pre1 : Table),
      (∀ q ∈ mid, q.1 ≠ u.1) → (∀ q ∈ suf, q.1 ≠ u.1) →
      (autoTraceAux core dlimit pre1 (mid ++ u :: suf)).filter (fun e => e.src = u.1) =
        sweepBlock core dlimit u (pre1 ++ mid).reverse
  | [], suf, pre1, _, hsuf => by
    rw [List.nil_append, autoTraceAux_cons, List.filter_append,
      sweepBlock_filter_self core dlimit u pre1.reverse]
    have h2 : (autoTraceAux core dlimit (pre1 ++ [u]) suf).filter (fun e => e.src = u.1) = [] := by
      apply List.filter_eq_nil_iff.mpr
      intro e he
      have hsrc := autoTraceAux_src core dlimit suf (pre1 ++ [u]) e he
      obtain ⟨q, hq, h3⟩ := List.mem_map.mp hsrc
      simp only [decide_eq_true_eq]
      intro hc
      exact hsuf q hq (h3.trans hc)
    rw [h2, List.append_nil, List.append_nil]
  | q :: mid, suf, pre1, hmid, hsuf => by
    rw [List.cons_append, autoTraceAux_cons, List.filter_append,
      sweepBlock_filter_other core dlimit q pre1.reverse u.1
        (fun hc => hmid q (List.mem_cons_self q mid) hc.symm),
      autoTraceAux_filter core dlimit u mid suf (pre1 ++ [q])
        (fun q2 hq2 => hmid q2 (List.mem_cons_of_mem q hq2)) hsuf]
    rw [List.nil_append, List.append_assoc, List.singleton_append]

/-- Filtering the full sweep trace at a non-root genotype yields exactly the
reversed prefix block of that genotype. -/
theorem autoTrace_filter (core : List (ℚ × ℚ) → ScoreData) (dlimit : ℚ) (u : Row)
    (pre suf tbl : Table) (htbl : tbl = pre ++ u :: suf) (hpre2 : pre ≠ [])
    (hpre : ∀ q ∈ pre, q.1 ≠ u.1) (hsuf : ∀ q ∈ suf, q.1 ≠ u.1) :
    (autoTrace core dlimit tbl).filter (fun e => e.src = u.1) =
      sweepBlock core dlimit u pre.reverse := by
  cases pre with
  | nil => exact absurd rfl hpre2
  | cons r0 pre2 =>
    subst htbl
    rw [List.cons_append, autoTrace,
      autoTraceAux_filter core dlimit u pre2 suf [r0]
        (fun q hq => hpre q (List.mem_cons_of_mem r0 hq)) hsuf]
    rfl

/-- First-occurrence decomposition of a table at one of its labels. -/
theorem mem_label_decomp :
    ∀ (tbl : Table) (g : String), g ∈ tbl.map Prod.fst →
      ∃ pre u suf, tbl = pre ++ u :: suf ∧ u.1 = g ∧ ∀ q ∈ pre, q.1 ≠ g
  | [], g, h => absurd h (by simp)
  | r :: tbl, g, h => by
    by_cases hrg : r.1 = g
    · exact ⟨[], r, tbl, rfl, hrg, by simp⟩
    · have h2 : g ∈ tbl.map Prod.fst := by
        rw [List.map_cons] at h
        exact (List.mem_cons.mp h).resolve_left (fun hc => hrg hc.symm)
      obtain ⟨pre, u, suf, h1, hu, hprene⟩ := mem_label_decomp tbl g h2
      refine ⟨r :: pre, u, suf, by rw [h1]; rfl, hu, ?_⟩
      intro q hq
      rcases List.mem_cons.mp hq with rfl | hq2
      · exact hrg
      · exact hprene q hq2

/-- The position of a label sitting right after a prefix avoiding it. -/
theorem posOf_append (g : String) :
    ∀ (L1 L2 : List String), g ∉ L1 → posOf g (L1 ++ g :: L2) = L1.length
  | [], L2, _ => by simp [posOf]
  | x :: L1, L2, h => by
    have hxg : x ≠ g := fun hc => h (hc ▸ List.mem_cons_self x L1)
    rw [List.cons_append, posOf, if_neg hxg,
      posOf_append g L1 L2 (fun hc => h (List.mem_cons_of_mem x hc))]
    rfl

/-- A label occurring in a prefix has a position inside that prefix. -/
theorem posOf_lt (g : String) :
    ∀ (L1 L2 : List String), g ∈ L1 → posOf g (L1 ++ L2) < L1.length
  | [], _, h => absurd h (List.not_mem_nil g)
  | x :: L1, L2, h => by
    by_cases hx : x = g
    · rw [List.cons_append, posOf, if_pos hx]
      simp
    · rw [List.cons_append, posOf, if_neg hx]
      have h2 : g ∈ L1 := (List.mem_cons.mp h).resolve_left (fun hc => hx hc.symm)
      exact Nat.succ_lt_succ (posOf_lt g L1 L2 h2)

/-- First-occurrence decomposition at a label of a duplicate-free table,
with the remaining occurrences excluded and the position identified. -/
theorem nodup_label_decomp (tbl : Table) (g : String)
    (hnd : (tbl.map Prod.fst).Nodup) (hmem : g ∈ tbl.map Prod.fst) :
    ∃ pre u suf, tbl = pre ++ u :: suf ∧ u.1 = g ∧
      (∀ q ∈ pre, q.1 ≠ g) ∧ (∀ q ∈ suf, q.1 ≠ g) ∧
      posOf g (tbl.map Prod.fst) = pre.length := by
  obtain ⟨pre, u, suf, htbl, hu, hpre⟩ := mem_label_decomp tbl g hmem
  have hmap : tbl.map Prod.fst = pre.map Prod.fst ++ g :: suf.map Prod.fst := by
    rw [htbl, List.map_append, List.map_cons, hu]
  have hgpre : g ∉ pre.map Prod.fst := by
    intro hc
    obtain ⟨q, hq, hq2⟩ := List.mem_map.mp hc
    exact hpre q hq hq2
  refine ⟨pre, u, suf, htbl, hu, hpre, ?_, ?_⟩
  · intro q hq hqg
    have hnd2 := hnd
    rw [hmap] at hnd2
    have hr := (List.nodup_append.mp hnd2).2.1
    exact (List.nodup_cons.mp hr).1 (hqg ▸ List.mem_map_of_mem Prod.fst hq)
  · rw [hmap, posOf_append g _ _ hgpre, List.length_map]

/-- Every total score of the abstracted scorer is below the override
priority, zero included. -/
theorem scorePairOk_lt (core : List (ℚ × ℚ) → ScoreData) (dlimit : ℚ) (a b : List ℚ)
    (hbound : ∀ s, (core s).totalScore < 100) :
    (scorePairOk core dlimit a b).totalScore < 100 := by
  unfold scorePairOk
  dsimp only
  split
  · norm_num
  · exact hbound _

/-- Every automatically recorded edge has priority below 100 when the scorer
is bounded. -/
theorem sweepBlock_pri_lt (core : List (ℚ × ℚ) → ScoreData) (dlimit : ℚ) (u : Row)
    (L : List Row) (hbound : ∀ s, (core s).totalScore < 100) :
    ∀ e ∈ sweepBlock core dlimit u L, e.pri < 100 := by
  intro e he
  obtain ⟨q, _, rfl⟩ := List.mem_map.mp he
  exact scorePairOk_lt core dlimit q.2 u.2 hbound

/-- Unfolding of `firstInjTarget` on one declared pair. -/
theorem firstInjTarget_cons (i p g : String) (rest : List (String × String)) :
    firstInjTarget ((i, p) :: rest) g =
      if g = p then some "genotype-0" else if g = i then some p
      else firstInjTarget rest g := by
  unfold firstInjTarget
  rw [injTrace_cons]
  by_cases hgp : g = p
  · rw [if_pos hgp, List.filter_cons_of_pos (by simpa using hgp.symm)]
    rfl
  · rw [if_neg hgp, List.filter_cons_of_neg (by simpa using fun hc => hgp hc.symm)]
    by_cases hgi : g = i
    · rw [if_pos hgi, List.filter_cons_of_pos (by simpa using hgi.symm)]
      rfl
    · rw [if_neg hgi, List.filter_cons_of_neg (by simpa using fun hc => hgi hc.symm)]

/-- Unfolding of `injDepth` on one declared pair. -/
theorem injDepth_cons (i p g : String) (rest : List (String × String)) :
    injDepth ((i, p) :: rest) g =
      if g = p then 0 else if g = i then 1 else 2 + injDepth rest g := rfl

/-- A genotype with an injected edge sits within the injection trace. -/
theorem injDepth_lt :
    ∀ (ov : List (String × String)) (g : String), (firstInjTarget ov g).isSome →
      injDepth ov g < 2 * ov.length + 1
  | [], g, h => by simp [firstInjTarget, injTrace] at h
  | (i, p) :: rest, g, h => by
    rw [injDepth_cons]
    by_cases hgp : g = p
    · rw [if_pos hgp]
      omega
    · rw [if_neg hgp]
      by_cases hgi : g = i
      · rw [if_pos hgi]
        simp only [List.length_cons]
        omega
      · rw [if_neg hgi]
        rw [firstInjTarget_cons, if_neg hgp, if_neg hgi] at h
        have := injDepth_lt rest g h
        simp only [List.length_cons]
        omega

/-- The declared parent behind a non-root injected target has its own
injected edge strictly earlier in the injection trace. -/
theorem firstInj_rank :
    ∀ (ov : List (String × String)) (g t : String),
      firstInjTarget ov g = some t → t ≠ "genotype-0" →
      (firstInjTarget ov t).isSome ∧ injDepth ov t < injDepth ov g
  | [], g, t, h, _ => by simp [firstInjTarget, injTrace] at h
  | (i, p) :: rest, g, t, h, ht => by
    rw [firstInjTarget_cons] at h
    by_cases hgp : g = p
    · rw [if_pos hgp] at h
      exact absurd (Option.some.inj h).symm ht
    · rw [if_neg hgp] at h
      by_cases hgi : g = i
      · rw [if_pos hgi] at h
        have htp : t = p := (Option.some.inj h).symm
        subst htp
        constructor
        · rw [firstInjTarget_cons, if_pos rfl]
          rfl
        · rw [injDepth_cons, injDepth_cons, if_pos rfl, if_neg hgp, if_pos hgi]
          omega
      · rw [if_neg hgi] at h
        obtain ⟨hsome, hlt⟩ := firstInj_rank rest g t h ht
        constructor
        · rw [firstInjTarget_cons]
          by_cases htp : t = p
          · rw [if_pos htp]
            rfl
          · rw [if_neg htp]
            by_cases hti : t = i
            · rw [if_pos hti]
              rfl
            · rw [if_neg hti]
              exact hsome
        · rw [injDepth_cons, injDepth_cons, if_neg hgp, if_neg hgi]
          by_cases htp : t = p
          · rw [if_pos htp]
            omega
          · rw [if_neg htp]
            by_cases hti : t = i
            · rw [if_pos hti]
              omega
            · rw [if_neg hti]
              omega

/-- An injected first target comes from an actual edge of the injection
trace. -/
theorem firstInjTarget_mem (ov : List (String × String)) (g t : String)
    (h : firstInjTarget ov g = some t) :
    ∃ e, e ∈ injTrace ov ∧ e.src = g ∧ e.dst = t := by
  unfold firstInjTarget at h
  cases hf : (injTrace ov).filter (fun e => e.src = g) with
  | nil => rw [hf] at h; cases h
  | cons e0 tail =>
    rw [hf] at h
    have he0 : e0 ∈ (injTrace ov).filter (fun e => e.src = g) := by
      rw [hf]; exact List.mem_cons_self e0 tail
    have hm := List.mem_filter.mp he0
    exact ⟨e0, hm.1, by simpa using hm.2, Option.some.inj h⟩

/-- The decisive step property of the final ancestry graph over a table with
the conventional root label: every non-root table genotype has candidates,
and its chosen background is either the root or another table genotype of
strictly smaller measure. -/
theorem step_lemma (core : List (ℚ × ℚ) → ScoreData) (dlimit : ℚ)
    (r0 : Row) (rest : Table) (ov : List (String × String)) (A2 : Ancestry)
    (hA2 : A2 = ⟨r0.1, List.map Prod.fst (r0 :: rest),
      injTrace ov ++ autoTrace core dlimit (r0 :: rest)⟩)
    (hnd : (List.map Prod.fst (r0 :: rest)).Nodup)
    (hroot : r0.1 = "genotype-0")
    (hbound : ∀ s, (core s).totalScore < 100)
    (hfacts : ∀ e ∈ injTrace ov, e.src ≠ e.dst ∧ e.src ∈ List.map Prod.fst (r0 :: rest) ∧
      e.dst ∈ List.map Prod.fst (r0 :: rest))
    (g : String) (hg : g ∈ List.map Prod.fst (r0 :: rest)) (hgr : g ≠ r0.1) :
    A2.nests.filter (fun e2 => e2.src = g) ≠ [] ∧
    (A2.bestTarget g = r0.1 ∨
      (A2.bestTarget g ∈ List.map Prod.fst (r0 :: rest) ∧ A2.bestTarget g ≠ r0.1 ∧
        mu ov (List.map Prod.fst (r0 :: rest)) (A2.bestTarget g) <
          mu ov (List.map Prod.fst (r0 :: rest)) g)) := by
  obtain ⟨pre, u, suf, htbl, hu, hpre, hsuf, hpos⟩ := nodup_label_decomp (r0 :: rest) g hnd hg
  have hpre_ne : pre ≠ [] := by
    intro hc
    subst hc
    rw [List.nil_append] at htbl
    have hr0u : r0 = u := (List.cons_eq_cons.mp htbl).1
    have : r0.1 = g := by rw [hr0u]; exact hu
    exact hgr this.symm
  have hauto : (autoTrace core dlimit (r0 :: rest)).filter (fun e2 => e2.src = g) =
      sweepBlock core dlimit u pre.reverse := by
    have h1 := autoTrace_filter core dlimit u pre suf (r0 :: rest) htbl hpre_ne
      (fun q hq hc => hpre q hq (hc.trans hu)) (fun q hq hc => hsuf q hq (hc.trans hu))
    rw [hu] at h1
    exact h1
  have hblock_ne : sweepBlock core dlimit u pre.reverse ≠ [] := by
    intro hc
    rw [sweepBlock] at hc
    exact hpre_ne (List.reverse_eq_nil_iff.mp (List.map_eq_nil_iff.mp hc))
  have hcands : A2.nests.filter (fun e2 => e2.src = g) =
      (injTrace ov).filter (fun e2 => e2.src = g) ++ sweepBlock core dlimit u pre.reverse := by
    rw [hA2]
    show (injTrace ov ++ autoTrace core dlimit (r0 :: rest)).filter (fun e2 => e2.src = g) = _
    rw [List.filter_append, hauto]
  cases hinjF : (injTrace ov).filter (fun e2 => e2.src = g) with
  | nil =>
    rw [hinjF, List.nil_append] at hcands
    obtain ⟨e, bpre, bpost, hbe, hdecomp2, hmax, hstrict⟩ := bestEdge_decomp _ hblock_ne
    have hbt : A2.bestTarget g = e.dst := by
      unfold Ancestry.bestTarget
      rw [hcands, hbe]
    have hemem : e ∈ sweepBlock core dlimit u pre.reverse := by
      rw [hdecomp2]
      exact List.mem_append_right _ (List.mem_cons_self e bpost)
    obtain ⟨q, hqrev, hdst⟩ := List.mem_map.mp (sweepBlock_src core dlimit u pre.reverse e hemem).2
    have hqpre : q ∈ pre := List.mem_reverse.mp hqrev
    have hqlab : q.1 ∈ List.map Prod.fst (r0 :: rest) := by
      rw [htbl]
      exact List.mem_map_of_mem Prod.fst (List.mem_append_left _ hqpre)
    refine ⟨by rw [hcands]; exact hblock_ne, ?_⟩
    by_cases hdr : e.dst = r0.1
    · exact Or.inl (hbt.trans hdr)
    · refine Or.inr ⟨by rw [hbt, ← hdst]; exact hqlab, by rw [hbt]; exact hdr, ?_⟩
      have hfitg : firstInjTarget ov g = none := by
        unfold firstInjTarget
        rw [hinjF]
        rfl
      have hmug : mu ov (List.map Prod.fst (r0 :: rest)) g =
          2 * ov.length + 1 + pre.length := by
        unfold mu
        rw [hfitg]
        simp only [Option.isSome_none, Bool.false_eq_true, if_false]
        rw [hpos]
      have hposq : posOf q.1 (List.map Prod.fst (r0 :: rest)) < pre.length := by
        have hmap : List.map Prod.fst (r0 :: rest) =
            pre.map Prod.fst ++ (u.1 :: suf.map Prod.fst) := by
          rw [htbl, List.map_append, List.map_cons]
        rw [hmap]
        have : q.1 ∈ pre.map Prod.fst := List.mem_map_of_mem Prod.fst hqpre
        have h2 := posOf_lt q.1 (pre.map Prod.fst) (u.1 :: suf.map Prod.fst) this
        rw [List.length_map] at h2
        exact h2
      rw [hbt, hmug]
      by_cases hsome : (firstInjTarget ov e.dst).isSome
      · unfold mu
        rw [if_pos hsome]
        have := injDepth_lt ov e.dst hsome
        omega
      · unfold mu
        rw [if_neg hsome]
        rw [← hdst]
        omega
  | cons e0 injF2 =>
    have he0f : e0 ∈ (injTrace ov).filter (fun e2 => e2.src = g) := by
      rw [hinjF]
      exact List.mem_cons_self e0 injF2
    have he0inj : e0 ∈ injTrace ov := (List.mem_filter.mp he0f).1
    have he0src : e0.src = g := by simpa using (List.mem_filter.mp he0f).2
    have he0pri : e0.pri = 100 := injTrace_pri ov e0 he0inj
    have hall : ∀ x ∈ injF2 ++ sweepBlock core dlimit u pre.reverse, x.pri ≤ e0.pri := by
      intro x hx
      rw [he0pri]
      rcases List.mem_append.mp hx with h | h
      · have hxf : x ∈ (injTrace ov).filter (fun e2 => e2.src = g) := by
          rw [hinjF]
          exact List.mem_cons_of_mem e0 h
        exact le_of_eq (injTrace_pri ov x (List.mem_filter.mp hxf).1)
      · exact le_of_lt (sweepBlock_pri_lt core dlimit u pre.reverse hbound x h)
    have hbest : bestEdge (A2.nests.filter (fun e2 => e2.src = g)) = some e0 := by
      rw [hcands, hinjF, List.cons_append]
      exact bestEdge_keep e0 _ hall
    have hbt : A2.bestTarget g = e0.dst := by
      unfold Ancestry.bestTarget
      rw [hbest]
    have hfitg : firstInjTarget ov g = some e0.dst := by
      unfold firstInjTarget
      rw [hinjF]
      rfl
    refine ⟨by rw [hcands, hinjF]; simp, ?_⟩
    by_cases hdr : e0.dst = r0.1
    · exact Or.inl (hbt.trans hdr)
    · have hdne : e0.dst ≠ "genotype-0" := by
        rw [← hroot]
        exact hdr
      obtain ⟨hsome, hlt⟩ := firstInj_rank ov g e0.dst hfitg hdne
      refine Or.inr ⟨by rw [hbt]; exact (hfacts e0 he0inj).2.2, by rw [hbt]; exact hdr, ?_⟩
      rw [hbt]
      unfold mu
      rw [if_pos hsome, if_pos (by rw [hfitg]; rfl)]
      exact hlt

/-- Iterating a mapping tabulated over a duplicate-free key list with a
strictly decreasing measure towards the root reaches the root within as many
hops as there are keys, and stays there. -/
theorem chain_reaches (S : List String) (root : String) (f : String → String)
    (μ : String → ℕ) (hroot : root ∉ S)
    (hstep : ∀ g ∈ S, f g = root ∨ (f g ∈ S ∧ μ (f g) < μ g))
    (g : String) (hg : g ∈ S) :
    ∃ t ≤ S.length, ∀ s, t ≤ s → iterFrom (S.map (fun x => (x, f x))) g s = root := by
  have hlook : ∀ x ∈ S, (S.map (fun x2 => (x2, f x2))).lookup x = some (f x) :=
    fun x hx => lookup_map_self f S x hx
  have hlookr : (S.map (fun x2 => (x2, f x2))).lookup root = none :=
    lookup_map_self_none f S root hroot
  have hstay : ∀ t0, iterFrom (S.map (fun x => (x, f x))) g t0 = root →
      ∀ d, iterFrom (S.map (fun x => (x, f x))) g (t0 + d) = root := by
    intro t0 h0 d
    induction d with
    | zero => exact h0
    | succ d IH =>
      show iterFrom (S.map (fun x => (x, f x))) g (t0 + d + 1) = root
      rw [iterFrom, IH, hlookr]
  have hreach : ∃ t ≤ S.length, iterFrom (S.map (fun x => (x, f x))) g t = root := by
    by_contra hno
    push_neg at hno
    have hin : ∀ t, t ≤ S.length → iterFrom (S.map (fun x => (x, f x))) g t ∈ S := by
      intro t
      induction t with
      | zero => exact fun _ => hg
      | succ t IH =>
        intro ht
        have hmem := IH (Nat.le_of_succ_le ht)
        have heq : iterFrom (S.map (fun x => (x, f x))) g (t + 1) =
            f (iterFrom (S.map (fun x => (x, f x))) g t) := by
          rw [iterFrom, hlook _ hmem]
        rcases hstep _ hmem with h | h
        · exact absurd (heq.trans h) (hno (t + 1) ht)
        · rw [heq]
          exact h.1
    have hdec : ∀ t, t < S.length →
        μ (iterFrom (S.map (fun x => (x, f x))) g (t + 1)) <
          μ (iterFrom (S.map (fun x => (x, f x))) g t) := by
      intro t ht
      have hmem := hin t (le_of_lt ht)
      have heq : iterFrom (S.map (fun x => (x, f x))) g (t + 1) =
          f (iterFrom (S.map (fun x => (x, f x))) g t) := by
        rw [iterFrom, hlook _ hmem]
      rcases hstep _ hmem with h | h
      · exact absurd (heq.trans h) (hno (t + 1) ht)
      · rw [heq]
        exact h.2
    have hmono : ∀ t t2, t < t2 → t2 ≤ S.length →
        μ (iterFrom (S.map (fun x => (x, f x))) g t2) <
          μ (iterFrom (S.map (fun x => (x, f x))) g t) := by
      intro t t2 h12 h2
      induction t2 with
      | zero => omega
      | succ t2 IH =>
        rcases Nat.lt_or_ge t t2 with h | h
        · exact lt_trans (hdec t2 (by omega)) (IH (by omega) (by omega))
        · have hteq : t = t2 := by omega
          subst hteq
          exact hdec t (by omega)
    have hL : ((List.range (S.length + 1)).map
        (fun t => iterFrom (S.map (fun x => (x, f x))) g t)).Nodup := by
      apply List.Nodup.map_on ?_ (List.nodup_range _)
      intro x hx y hy hxy
      rw [List.mem_range] at hx hy
      by_contra hne
      rcases Nat.lt_or_ge x y with h | h
      · have := hmono x y h (by omega)
        rw [hxy] at this
        exact absurd this (lt_irrefl _)
      · have hyx : y < x := by omega
        have := hmono y x hyx (by omega)
        rw [hxy] at this
        exact absurd this (lt_irrefl _)
    have hsub : ((List.range (S.length + 1)).map
        (fun t => iterFrom (S.map (fun x => (x, f x))) g t)) ⊆ S := by
      intro a ha
      obtain ⟨t, ht, rfl⟩ := List.mem_map.mp ha
      rw [List.mem_range] at ht
      exact hin t (by omega)
    have hlen := (List.subperm_of_subset hL hsub).length_le
    rw [List.length_map, List.length_range] at hlen
    omega
  obtain ⟨t, ht, hroot_t⟩ := hreach
  refine ⟨t, ht, fun s hs => ?_⟩
  have h2 : s = t + (s - t) := by omega
  rw [h2]
  exact hstay t hroot_t (s - t)

/-- `runMappingE` unfolded over the run result. -/
theorem runMappingE_of_runE (core : List (ℚ × ℚ) → ScoreData) (dlimit : ℚ)
    (tbl : Table) (ov : List (String × String)) :
    runMappingE core dlimit tbl ov =
      match runE core dlimit tbl ov with
      | ⟨some anc, _, none⟩ => anc.as_dict
      | ⟨_, _, some e⟩ => .error e
      | ⟨none, _, none⟩ => .error .missingRoot := rfl

/-- The sweep never records an edge from a genotype to itself when the table
labels are duplicate-free. -/
theorem autoTraceAux_no_self (core : List (ℚ × ℚ) → ScoreData) (dlimit : ℚ) :
    ∀ (rest pre : Table), (((pre ++ rest).map Prod.fst)).Nodup →
      ∀ e ∈ autoTraceAux core dlimit pre rest, e.src ≠ e.dst
  | [], pre, _, e, he => absurd he (by simp [autoTraceAux])
  | r :: rest', pre, hnd, e, he => by
    rw [autoTraceAux_cons] at he
    rcases List.mem_append.mp he with h | h
    · obtain ⟨q, hqrev, rfl⟩ := List.mem_map.mp h
      have hqpre : q ∈ pre := List.mem_reverse.mp hqrev
      intro hc
      have hc2 : r.1 = q.1 := hc
      have hnd2 := hnd
      rw [List.map_append] at hnd2
      exact (List.nodup_append.mp hnd2).2.2
        (List.mem_map_of_mem Prod.fst hqpre)
        (by rw [List.map_cons, ← hc2]; exact List.mem_cons_self _ _)
    · exact autoTraceAux_no_self core dlimit rest' (pre ++ [r])
        (by rw [List.append_assoc]; exact hnd) e h

/-- The completed run over a conventionally labeled table flattens to the
tabulation of `bestTarget` over the non-root labels in table order. -/
theorem runMappingE_ok (core : List (ℚ × ℚ) → ScoreData) (dlimit : ℚ)
    (r0 : Row) (rest : Table) (ov : List (String × String)) (a1 A2 : Ancestry)
    (hA2 : A2 = ⟨r0.1, List.map Prod.fst (r0 :: rest),
      injTrace ov ++ autoTrace core dlimit (r0 :: rest)⟩)
    (hnd : (List.map Prod.fst (r0 :: rest)).Nodup)
    (hrect : ∀ q ∈ (r0 :: rest), ∀ r2 ∈ (r0 :: rest), q.2.length = r2.2.length)
    (hroot : r0.1 = "genotype-0")
    (hbound : ∀ s, (core s).totalScore < 100)
    (hinj : injectAll (Ancestry.new r0.1 (List.map Prod.fst (r0 :: rest))) ov = (a1, none)) :
    runMappingE core dlimit (r0 :: rest) ov =
      .ok (((List.map Prod.fst (r0 :: rest)).filter (fun l => decide (l ≠ r0.1))).map
        (fun g => (g, A2.bestTarget g))) := by
  have hfacts : ∀ e ∈ injTrace ov, e.src ≠ e.dst ∧ e.src ∈ List.map Prod.fst (r0 :: rest) ∧
      e.dst ∈ List.map Prod.fst (r0 :: rest) := (injectAll_ok ov _ a1 hinj).2.2.2
  have hcands : ∀ g ∈ List.map Prod.fst (r0 :: rest),
      A2.nests.filter (fun e2 => e2.src = g) ≠ [] ∨ g = A2.rootLabel := by
    intro g hg
    by_cases hgr : g = r0.1
    · exact Or.inr (by rw [hA2]; exact hgr)
    · exact Or.inl
        (step_lemma core dlimit r0 rest ov A2 hA2 hnd hroot hbound hfacts g hg hgr).1
  have hshow : showAncestry A2 (List.map Prod.fst (r0 :: rest)) = none :=
    showAncestry_ok A2 _ hcands
  have hdict : A2.as_dict = .ok (((List.map Prod.fst (r0 :: rest)).filter
      (fun l => decide (l ≠ r0.1))).map (fun g => (g, A2.bestTarget g))) := by
    rw [Ancestry.as_dict]
    have hlabels : A2.tableLabels = List.map Prod.fst (r0 :: rest) := by rw [hA2]
    have hrl : A2.rootLabel = r0.1 := by rw [hA2]
    rw [hlabels, hrl]
    apply collectDict_ok
    intro g hgf
    exact hcands g (List.mem_filter.mp hgf).1
  rw [runMappingE_of_runE, runE_of_inject_ok core dlimit r0 rest ov a1 hnd hrect hinj,
    ← hA2, hshow]
  exact hdict

/-- Every edge of the sweep trace has a priority below 100 when the scorer is
bounded. -/
theorem autoTraceAux_pri_lt (core : List (ℚ × ℚ) → ScoreData) (dlimit : ℚ)
    (hbound : ∀ s, (core s).totalScore < 100) :
    ∀ (rest pre : Table), ∀ e ∈ autoTraceAux core dlimit pre rest, e.pri < 100
  | [], pre, e, he => absurd he (by simp [autoTraceAux])
  | r :: rest', pre, e, he => by
    rw [autoTraceAux_cons] at he
    rcases List.mem_append.mp he with h | h
    · exact sweepBlock_pri_lt core dlimit r pre.reverse hbound e h
    · exact autoTraceAux_pri_lt core dlimit hbound rest' (pre ++ [r]) e h

/-- When the head of a genotype's candidate list dominates every other
candidate, it is the chosen background. -/
theorem bestTarget_first (A2 : Ancestry) (g : String) (e0 : Edge) (injF2 autos : List Edge)
    (hcands : A2.nests.filter (fun e2 => e2.src = g) = (e0 :: injF2) ++ autos)
    (hall : ∀ x ∈ injF2 ++ autos, x.pri ≤ e0.pri) :
    A2.bestTarget g = e0.dst := by
  unfold Ancestry.bestTarget
  rw [hcands, List.cons_append, bestEdge_keep e0 _ hall]

/-- A run over a nonempty table always assigns a fresh `Ancestry` to the
instance, whichever way it ends. -/
theorem runE_nests_some (core : List (ℚ × ℚ) → ScoreData) (dlimit : ℚ)
    (r0 : Row) (rest : Table) (ov : List (String × String)) :
    ∃ a, (runE core dlimit (r0 :: rest) ov).nests = some a := by
  rw [runE]
  rcases hinj : injectAll (Ancestry.new r0.1 (List.map Prod.fst (r0 :: rest))) ov with ⟨a1, oerr⟩
  cases oerr with
  | some e => exact ⟨a1, rfl⟩
  | none =>
    dsimp only
    rcases hsw : sweepOuter core dlimit (r0 :: rest) a1 [] rest with ⟨a2, recs, oe2⟩
    cases oe2 with
    | some e => exact ⟨a2, rfl⟩
    | none =>
      dsimp only
      cases hs : showAncestry a2 (List.map Prod.fst (r0 :: rest)) with
      | some e => exact ⟨a2, rfl⟩
      | none => exact ⟨a2, rfl⟩

/-! ### Claim theorems -/

/-- **C1.** The automatic sweep of `LineageWorkflow.run` (and identically of
`order_clusters`) over a sorted table with duplicate-free row labels and
aligned trajectories visits each non-root genotype in ascending table order,
records exactly one candidate edge per previously seen genotype (positions
0..i-1), visits those candidates in descending position order (`autoTrace`
is by definition exactly that trace, with the pair's total score as each
edge's priority), and never records an edge from a genotype to itself. -/
theorem auto_sweep_refines_spec_order (core : List (ℚ × ℚ) → ScoreData) (dlimit : ℚ)
    (r0 : Row) (rest : Table) (anc : Ancestry) (recs : List ScoreData)
    (hnd : (List.map Prod.fst (r0 :: rest)).Nodup)
    (hrect : ∀ q ∈ (r0 :: rest), ∀ r2 ∈ (r0 :: rest), q.2.length = r2.2.length)
    (hlab : anc.tableLabels = List.map Prod.fst (r0 :: rest)) :
    sweepOuter core dlimit (r0 :: rest) anc recs rest =
      ({ anc with nests := anc.nests ++ autoTrace core dlimit (r0 :: rest) },
        recs ++ autoRecords core dlimit (r0 :: rest), none) ∧
    ∀ e ∈ autoTrace core dlimit (r0 :: rest), e.src ≠ e.dst := by
  constructor
  · exact sweepOuter_clean core dlimit (r0 :: rest) rest [r0] anc recs rfl hnd hlab hrect
  · exact autoTraceAux_no_self core dlimit rest [r0] hnd

/-- **C5 (amended).** For every completed run over a sorted table with
duplicate-free row labels whose designated root (row 0) carries the
conventional label genotype-0, with aligned trajectories and automatic
scores bounded below the override priority 100 (as the spec asserts of the
scorer), the flattened parent mapping is a forest rooted at the root:
following the mapping from any table genotype reaches the root within at
most n hops, where n is the number of genotypes, and stays there (no cycle).
The claim as stated, without the conventional-label hypothesis, is refuted
by its counterexample: a completed run whose mapping contains a two-cycle
never reaching the designated root. -/
theorem forest_reaches_root_amended (core : List (ℚ × ℚ) → ScoreData) (dlimit : ℚ)
    (r0 : Row) (rest : Table) (ov : List (String × String)) (m : List (String × String))
    (hroot : r0.1 = "genotype-0")
    (hnd : (List.map Prod.fst (r0 :: rest)).Nodup)
    (hrect : ∀ q ∈ (r0 :: rest), ∀ r2 ∈ (r0 :: rest), q.2.length = r2.2.length)
    (hbound : ∀ s, (core s).totalScore < 100)
    (hm : runMappingE core dlimit (r0 :: rest) ov = .ok m) :
    ∀ g ∈ List.map Prod.fst (r0 :: rest),
      ∃ t ≤ (r0 :: rest : Table).length, ∀ s, t ≤ s → iterFrom m g s = "genotype-0" := by
  rcases hinjp : injectAll (Ancestry.new r0.1 (List.map Prod.fst (r0 :: rest))) ov with ⟨a1, oerr⟩
  cases oerr with
  | some e =>
    rw [runMappingE_of_runE, runE_err_inject core dlimit r0 rest ov a1 e hinjp] at hm
    exact absurd hm (by simp)
  | none =>
    rw [runMappingE_ok core dlimit r0 rest ov a1 _ rfl hnd hrect hroot hbound hinjp] at hm
    have hmeq := Except.ok.inj hm
    subst hmeq
    have hfacts : ∀ e ∈ injTrace ov, e.src ≠ e.dst ∧
        e.src ∈ List.map Prod.fst (r0 :: rest) ∧ e.dst ∈ List.map Prod.fst (r0 :: rest) :=
      (injectAll_ok ov _ a1 hinjp).2.2.2
    have hrootS : r0.1 ∉ (List.map Prod.fst (r0 :: rest)).filter
        (fun l => decide (l ≠ r0.1)) := by
      intro hc
      have := (List.mem_filter.mp hc).2
      simp at this
    intro g hg
    by_cases hgr : g = r0.1
    · subst hgr
      refine ⟨0, Nat.zero_le _, fun s _ => ?_⟩
      have hlookr : (((List.map Prod.fst (r0 :: rest)).filter (fun l => decide (l ≠ r0.1))).map
          (fun g2 => (g2, Ancestry.bestTarget ⟨r0.1, List.map Prod.fst (r0 :: rest),
            injTrace ov ++ autoTrace core dlimit (r0 :: rest)⟩ g2))).lookup r0.1 = none :=
        lookup_map_self_none _ _ r0.1 hrootS
      have hstays : ∀ s2, iterFrom (((List.map Prod.fst (r0 :: rest)).filter
          (fun l => decide (l ≠ r0.1))).map
          (fun g2 => (g2, Ancestry.bestTarget ⟨r0.1, List.map Prod.fst (r0 :: rest),
            injTrace ov ++ autoTrace core dlimit (r0 :: rest)⟩ g2))) r0.1 s2 = r0.1 := by
        intro s2
        induction s2 with
        | zero => rfl
        | succ s2 IH => rw [iterFrom, IH, hlookr]
      rw [hstays s, ← hroot]
    · have hgS : g ∈ (List.map Prod.fst (r0 :: rest)).filter (fun l => decide (l ≠ r0.1)) :=
        List.mem_filter.mpr ⟨hg, by simpa using hgr⟩
      have hstep3 : ∀ g2 ∈ (List.map Prod.fst (r0 :: rest)).filter (fun l => decide (l ≠ r0.1)),
          Ancestry.bestTarget ⟨r0.1, List.map Prod.fst (r0 :: rest),
            injTrace ov ++ autoTrace core dlimit (r0 :: rest)⟩ g2 = r0.1 ∨
          (Ancestry.bestTarget ⟨r0.1, List.map Prod.fst (r0 :: rest),
            injTrace ov ++ autoTrace core dlimit (r0 :: rest)⟩ g2 ∈
              (List.map Prod.fst (r0 :: rest)).filter (fun l => decide (l ≠ r0.1)) ∧
            mu ov (List.map Prod.fst (r0 :: rest))
              (Ancestry.bestTarget ⟨r0.1, List.map Prod.fst (r0 :: rest),
                injTrace ov ++ autoTrace core dlimit (r0 :: rest)⟩ g2) <
              mu ov (List.map Prod.fst (r0 :: rest)) g2) := by
        intro g2 hg2
        have hm2 := List.mem_filter.mp hg2
        have hgr2 : g2 ≠ r0.1 := by simpa using hm2.2
        rcases (step_lemma core dlimit r0 rest ov _ rfl hnd hroot hbound hfacts
          g2 hm2.1 hgr2).2 with h | h
        · exact Or.inl h
        · exact Or.inr ⟨List.mem_filter.mpr ⟨h.1, by simpa using h.2.1⟩, h.2.2⟩
      obtain ⟨t, htle, hiter⟩ := chain_reaches
        ((List.map Prod.fst (r0 :: rest)).filter (fun l => decide (l ≠ r0.1))) r0.1
        (Ancestry.bestTarget ⟨r0.1, List.map Prod.fst (r0 :: rest),
          injTrace ov ++ autoTrace core dlimit (r0 :: rest)⟩)
        (mu ov (List.map Prod.fst (r0 :: rest))) hrootS hstep3 g hgS
      refine ⟨t, ?_, fun s hs => by rw [hiter s hs, ← hroot]⟩
      calc t ≤ ((List.map Prod.fst (r0 :: rest)).filter (fun l => decide (l ≠ r0.1))).length :=
            htle
        _ ≤ (List.map Prod.fst (r0 :: rest)).length := List.length_filter_le _ _
        _ = (r0 :: rest : Table).length := List.length_map _ _

/-- **C2 (amended).** Over a sorted table with duplicate-free row labels
whose root (row 0) carries the conventional label genotype-0, with aligned
trajectories and automatic scores below 100, a manual override {A: B} whose
labels occur in the table with A neither the root nor B: when B is not the
root the run completes with mapping[A] = B and mapping[B] = root, regardless
of the automatic scores; when B is the root itself, the run does not succeed
but fails with the invalid-reference error of the self-edge root -> root.
The claim as stated is refuted by its counterexample (B = root aborts the
run; A = root is absent from the mapping; A = B aborts the run; a
non-conventional root label breaks mapping[B] = root). -/
theorem override_precedence_amended (core : List (ℚ × ℚ) → ScoreData) (dlimit : ℚ)
    (r0 : Row) (rest : Table) (A B : String)
    (hroot : r0.1 = "genotype-0")
    (hnd : (List.map Prod.fst (r0 :: rest)).Nodup)
    (hrect : ∀ q ∈ (r0 :: rest), ∀ r2 ∈ (r0 :: rest), q.2.length = r2.2.length)
    (hbound : ∀ s, (core s).totalScore < 100)
    (hA : A ∈ List.map Prod.fst (r0 :: rest)) (hB : B ∈ List.map Prod.fst (r0 :: rest))
    (hAroot : A ≠ "genotype-0") (hAB : A ≠ B) :
    (B ≠ "genotype-0" →
      ∃ m, runMappingE core dlimit (r0 :: rest) [(A, B)] = .ok m ∧
        m.lookup A = some B ∧ m.lookup B = some "genotype-0") ∧
    (B = "genotype-0" →
      (runE core dlimit (r0 :: rest) [(A, B)]).err = some .invalidReference) := by
  constructor
  · intro hBne
    have hg0 : "genotype-0" ∈ List.map Prod.fst (r0 :: rest) := by
      rw [← hroot, List.map_cons]
      exact List.mem_cons_self r0.1 _
    have hadd1 := @add_succeeds (Ancestry.new r0.1 (List.map Prod.fst (r0 :: rest)))
      B "genotype-0" 100 hBne hB hg0
    have hadd2 := @add_succeeds { Ancestry.new r0.1 (List.map Prod.fst (r0 :: rest)) with
      nests := (Ancestry.new r0.1 (List.map Prod.fst (r0 :: rest))).nests ++
        [⟨B, "genotype-0", 100⟩] } A B 100 hAB hA hB
    have hinj : injectAll (Ancestry.new r0.1 (List.map Prod.fst (r0 :: rest))) [(A, B)] =
        ({ Ancestry.new r0.1 (List.map Prod.fst (r0 :: rest)) with
          nests := ((Ancestry.new r0.1 (List.map Prod.fst (r0 :: rest))).nests ++
            [⟨B, "genotype-0", 100⟩]) ++ [⟨A, B, 100⟩] }, none) := by
      rw [injectAll, hadd1]
      dsimp only
      rw [hadd2]
      dsimp only
      rw [injectAll]
    have hmok := runMappingE_ok core dlimit r0 rest [(A, B)] _ _ rfl hnd hrect hroot
      hbound hinj
    refine ⟨_, hmok, ?_, ?_⟩
    · have hAr : A ≠ r0.1 := fun hc => hAroot (hc.trans hroot)
      have hAS : A ∈ (List.map Prod.fst (r0 :: rest)).filter (fun l => decide (l ≠ r0.1)) :=
        List.mem_filter.mpr ⟨hA, by simpa using hAr⟩
      rw [lookup_map_self _ _ A hAS]
      congr 1
      refine bestTarget_first _ A ⟨A, B, 100⟩ []
        ((autoTrace core dlimit (r0 :: rest)).filter (fun e2 => e2.src = A)) ?_ ?_
      · show (injTrace [(A, B)] ++ autoTrace core dlimit (r0 :: rest)).filter
          (fun e2 => e2.src = A) = _
        rw [List.filter_append]
        have hfA : (injTrace [(A, B)]).filter (fun e2 => e2.src = A) = [⟨A, B, 100⟩] := by
          show ([⟨B, "genotype-0", 100⟩, ⟨A, B, 100⟩] : List Edge).filter
            (fun e2 => e2.src = A) = _
          rw [List.filter_cons_of_neg (by simpa using fun hc => hAB hc.symm),
            List.filter_cons_of_pos (by simp)]
          rfl
        rw [hfA]
      · intro x hx
        rw [List.nil_append] at hx
        have hx2 := List.mem_filter.mp hx
        exact le_of_lt (autoTraceAux_pri_lt core dlimit hbound rest [r0] x hx2.1)
    · have hBr : B ≠ r0.1 := fun hc => hBne (hc.trans hroot)
      have hBS : B ∈ (List.map Prod.fst (r0 :: rest)).filter (fun l => decide (l ≠ r0.1)) :=
        List.mem_filter.mpr ⟨hB, by simpa using hBr⟩
      rw [lookup_map_self _ _ B hBS]
      congr 1
      refine bestTarget_first _ B ⟨B, "genotype-0", 100⟩ []
        ((autoTrace core dlimit (r0 :: rest)).filter (fun e2 => e2.src = B)) ?_ ?_
      · show (injTrace [(A, B)] ++ autoTrace core dlimit (r0 :: rest)).filter
          (fun e2 => e2.src = B) = _
        rw [List.filter_append]
        have hfB : (injTrace [(A, B)]).filter (fun e2 => e2.src = B) =
            [⟨B, "genotype-0", 100⟩] := by
          show ([⟨B, "genotype-0", 100⟩, ⟨A, B, 100⟩] : List Edge).filter
            (fun e2 => e2.src = B) = _
          rw [List.filter_cons_of_pos (by simp), List.filter_cons_of_neg (by simpa using hAB)]
          rfl
        rw [hfB]
      · intro x hx
        rw [List.nil_append] at hx
        have hx2 := List.mem_filter.mp hx
        exact le_of_lt (autoTraceAux_pri_lt core dlimit hbound rest [r0] x hx2.1)
  · intro hBr
    subst hBr
    have hadd : (Ancestry.new r0.1 (List.map Prod.fst (r0 :: rest))).add_genotype_to_background
        "genotype-0" "genotype-0" 100 = .error .invalidReference := by
      unfold Ancestry.add_genotype_to_background
      rw [if_pos rfl]
    have hinj : injectAll (Ancestry.new r0.1 (List.map Prod.fst (r0 :: rest)))
        [(A, "genotype-0")] =
        (Ancestry.new r0.1 (List.map Prod.fst (r0 :: rest)), some .invalidReference) := by
      rw [injectAll, hadd]
    rw [runE_err_inject core dlimit r0 rest [(A, "genotype-0")] _ .invalidReference hinj]

/-- **C4 (amended).** For every user-declared (genotype, parent) pair
processed during a successful manual-override injection, exactly two
candidate edges are recorded, both at priority 100, with the edge
(parent -> literal label "genotype-0") recorded before the edge
(genotype -> parent); the first edge targets the designated root exactly
when the root carries its conventional label.  The claim as stated, with
the first edge targeting the designated root, is refuted by the
counterexample over a table whose root is labeled otherwise. -/
theorem inject_two_edges_amended (anc anc2 : Ancestry) (ov : List (String × String))
    (hinj : injectAll anc ov = (anc2, none)) :
    anc2.nests = anc.nests ++
      ov.flatMap (fun ip => [⟨ip.2, "genotype-0", 100⟩, ⟨ip.1, ip.2, 100⟩]) :=
  (injectAll_ok ov anc anc2 hinj).2.2.1

/-- **C6.** For every genotype with at least one recorded candidate edge,
`get_highest_priority` returns the candidate-background label of maximum
priority among all recorded candidates, and on ties the candidate recorded
earliest among those at the maximum: every candidate before the returned one
has a strictly smaller priority, so among two sweep candidates of identical
total score the one recorded (scanned) earlier is selected. -/
theorem get_highest_priority_earliest_max (anc : Ancestry) (g : String)
    (hne : anc.nests.filter (fun e2 => e2.src = g) ≠ []) :
    ∃ e pre post, anc.get_highest_priority g = .ok e.dst ∧
      anc.nests.filter (fun e2 => e2.src = g) = pre ++ e :: post ∧
      (∀ x ∈ anc.nests.filter (fun e2 => e2.src = g), x.pri ≤ e.pri) ∧
      (∀ x ∈ pre, x.pri < e.pri) := by
  obtain ⟨e, pre, post, hbe, hdec, hmax, hstrict⟩ := bestEdge_decomp _ hne
  refine ⟨e, pre, post, ?_, hdec, hmax, hstrict⟩
  unfold Ancestry.get_highest_priority
  rw [hbe]

/-- **C7.** On an empty sorted table, `LineageWorkflow.run` fails with the
missing-root error before building any ancestry graph, recording no candidate
edge and no score record; it does not silently produce an empty mapping. -/
theorem empty_table_missing_root (core : List (ℚ × ℚ) → ScoreData) (dlimit : ℚ)
    (ov : List (String × String)) :
    runE core dlimit [] ov = ⟨none, [], some .missingRoot⟩ := rfl

/-- **C8.** When the requested clustering method is not one of the accepted
methods, `parse_workflow_options` raises a ValueError naming the invalid
method, and the workflow aborts during option parsing: before the genotype
sweep begins and before any pair is scored (the score-record trace stays
empty). -/
theorem invalid_method_config_error (core : List (ℚ × ℚ) → ScoreData)
    (opts : ProgramOptions) (tbl : Table)
    (h : opts.method ∉ ACCEPTED_METHODS) :
    parse_workflow_options opts = .error (.valueError (opts.method ++
      " is not a valid option for the --method option. Expected one of [matlab, hierarchy]")) ∧
    workflow core opts tbl = (.error (.valueError (opts.method ++
      " is not a valid option for the --method option. Expected one of [matlab, hierarchy]")),
      []) := by
  have hp : parse_workflow_options opts = .error (.valueError (opts.method ++
      " is not a valid option for the --method option. Expected one of [matlab, hierarchy]")) := by
    unfold parse_workflow_options
    dsimp only
    rw [if_neg h]
  exact ⟨hp, by unfold workflow; rw [hp]⟩

/-- **C9.** For every pair of aligned trajectories sharing fewer than two
timepoints above the detection limit after filtering, `score_pair` returns
all-zero component scores (additive, derivative, area and total) instead of
raising an error, so the sweep continues past such pairs. -/
theorem score_pair_insufficient_data (core : List (ℚ × ℚ) → ScoreData) (dlimit : ℚ)
    (a b : List ℚ) (hlen : a.length = b.length)
    (hfew : ((a.zip b).filter (fun p => decide (dlimit < p.1 ∧ dlimit < p.2))).length < 2) :
    score_pair core dlimit a b = .ok ⟨0, 0, 0, 0⟩ := by
  rw [score_pair_eq_ok core dlimit a b hlen]
  unfold scorePairOk
  dsimp only
  rw [if_pos hfew]

/-- **C10.** `LineageWorkflow.run` never clears the diagnostic log: after a
second call on the same instance, `score_records` holds the constructor's
initial list followed by the first run's records followed by the second
run's, while `genotype_nests` is replaced by the fresh `Ancestry` of the
second run alone (whenever its table is nonempty, so the root row exists and
the fresh graph is built). -/
theorem run_appends_records_replaces_nests (core : List (ℚ × ℚ) → ScoreData)
    (w : LineageWorkflow) (tbl1 tbl2 : Table) (ov1 ov2 : List (String × String)) :
    (LineageWorkflow.run core (LineageWorkflow.run core w tbl1 ov1).1 tbl2 ov2).1.score_records =
      w.score_records ++ (runE core w.dlimit tbl1 ov1).records ++
        (runE core w.dlimit tbl2 ov2).records ∧
    (tbl2 ≠ [] →
      (LineageWorkflow.run core (LineageWorkflow.run core w tbl1 ov1).1 tbl2 ov2).1.genotype_nests =
        (runE core w.dlimit tbl2 ov2).nests) := by
  constructor
  · rfl
  · intro h2
    cases tbl2 with
    | nil => exact absurd rfl h2
    | cons r0 rest =>
      obtain ⟨a, ha⟩ := runE_nests_some core w.dlimit r0 rest ov2
      show (match (runE core w.dlimit (r0 :: rest) ov2).nests with
        | some a2 => some a2
        | none => (LineageWorkflow.run core w tbl1 ov1).1.genotype_nests) =
        (runE core w.dlimit (r0 :: rest) ov2).nests
      rw [ha]

/-- An `Except` computation whose option view holds a value is that value. -/
theorem except_eq_ok_of_toOption {ε α : Type} (e : Except ε α) (a : α)
    (h : e.toOption = some a) : e = .ok a := by
  cases e with
  | ok b =>
    have hb : b = a := Option.some.inj h
    rw [hb]
  | error e2 => cases h

/-! ### Counterexamples and witnesses -/

/-- **C2 (counterexample).** The claim fails as stated: with override
{genotype-1: genotype-0} over the conventional table the run aborts with an
invalid-reference error instead of succeeding with B = root; with override
{genotype-0: genotype-2} the root key A is absent from the mapping; over the
table rooted at "wt" the override {A: B} pins B to the literal label
genotype-0, not to the root; and the degenerate override {genotype-1:
genotype-1} aborts the run. -/
theorem override_precedence_counterexample :
    (runE core0 0 tblA [("genotype-1", "genotype-0")]).err = some .invalidReference ∧
    (runMappingE core0 0 tblA [("genotype-0", "genotype-2")]).toOption = some mapAroot ∧
    mapAroot.lookup "genotype-0" = none ∧
    (runMappingE core0 0 tblW4 [("A", "B")]).toOption = some mapW4 ∧
    mapW4.lookup "B" = some "genotype-0" ∧
    (tblW4.map Prod.fst).head? = some "wt" ∧
    (runE core0 0 tblA [("genotype-1", "genotype-1")]).err = some .invalidReference := by
  decide

/-- **C4 (counterexample).** Over the table rooted at "wt" (whose genotype
labeled genotype-0 sits at position 1), the injection of the pair (A, B)
records no (parent -> root) edge: the first recorded edge targets the
literal label genotype-0 rather than the designated root. -/
theorem inject_two_edges_counterexample :
    (⟨"B", "wt", 100⟩ : Edge) ∉ nestsW4 ∧ (⟨"B", "genotype-0", 100⟩ : Edge) ∈ nestsW4 ∧
    (tblW4.map Prod.fst).head? = some "wt" := by
  decide

/-- **C5 (counterexample).** A completed run whose flattened mapping contains
a two-cycle: over the table rooted at "wt" with override
{genotype-0: B}, the mapping sends genotype-0 to B and B back to genotype-0,
and following it from the table genotype genotype-0 never reaches the
designated root "wt" within n = 3 hops (nor ever). -/
theorem forest_reaches_root_counterexample :
    (runMappingE core0 0 tblW [("genotype-0", "B")]).toOption = some mapW ∧
    (tblW.map Prod.fst).head? = some "wt" ∧
    mapW.lookup "genotype-0" = some "B" ∧
    mapW.lookup "B" = some "genotype-0" ∧
    iterFrom mapW "genotype-0" 0 ≠ "wt" ∧ iterFrom mapW "genotype-0" 1 ≠ "wt" ∧
    iterFrom mapW "genotype-0" 2 ≠ "wt" ∧ iterFrom mapW "genotype-0" 3 ≠ "wt" := by
  decide

/-- Witness for the C1 theorem on a concrete three-row table. -/
theorem auto_sweep_refines_spec_order_witness :
    (List.map Prod.fst tblA).Nodup ∧
    (sweepOuter core0 0 tblA (Ancestry.new "genotype-0" (tblA.map Prod.fst)) []
        (tblA.drop 1) =
      ({ Ancestry.new "genotype-0" (tblA.map Prod.fst) with
          nests := (Ancestry.new "genotype-0" (tblA.map Prod.fst)).nests ++
            autoTrace core0 0 tblA },
        [] ++ autoRecords core0 0 tblA, none) ∧
      ∀ e ∈ autoTrace core0 0 tblA, e.src ≠ e.dst) :=
  ⟨by decide,
    auto_sweep_refines_spec_order core0 0 ("genotype-0", [9, 9, 9])
      [("genotype-1", [1, 2, 3]), ("genotype-2", [1, 1, 2])]
      (Ancestry.new "genotype-0" (tblA.map Prod.fst)) [] (by decide) (by decide) rfl⟩

/-- Witness for the amended C2 theorem on a concrete three-row table with
the override {genotype-2: genotype-1}. -/
theorem override_precedence_amended_witness :
    ("genotype-2" : String) ≠ "genotype-1" ∧
    ((("genotype-1" : String) ≠ "genotype-0" →
      ∃ m, runMappingE core0 0 tblA [("genotype-2", "genotype-1")] = .ok m ∧
        m.lookup "genotype-2" = some "genotype-1" ∧
        m.lookup "genotype-1" = some "genotype-0") ∧
    (("genotype-1" : String) = "genotype-0" →
      (runE core0 0 tblA [("genotype-2", "genotype-1")]).err = some .invalidReference)) :=
  ⟨by decide,
    override_precedence_amended core0 0 ("genotype-0", [9, 9, 9])
      [("genotype-1", [1, 2, 3]), ("genotype-2", [1, 1, 2])] "genotype-2" "genotype-1"
      rfl (by decide) (by decide) (fun _ => by show (1 : ℚ) < 100; norm_num)
      (by decide) (by decide) (by decide) (by decide)⟩

/-- Witness for the amended C4 theorem on a concrete injection. -/
theorem inject_two_edges_amended_witness :
    injectAll (Ancestry.new "genotype-0" ["genotype-0", "A", "B"]) [("A", "B")] =
      (⟨"genotype-0", ["genotype-0", "A", "B"],
        [⟨"B", "genotype-0", 100⟩, ⟨"A", "B", 100⟩]⟩, none) ∧
    (⟨"genotype-0", ["genotype-0", "A", "B"],
        [⟨"B", "genotype-0", 100⟩, ⟨"A", "B", 100⟩]⟩ : Ancestry).nests =
      (Ancestry.new "genotype-0" ["genotype-0", "A", "B"]).nests ++
        ([("A", "B")] : List (String × String)).flatMap
          (fun ip => [⟨ip.2, "genotype-0", 100⟩, ⟨ip.1, ip.2, 100⟩]) :=
  ⟨by decide, inject_two_edges_amended _ _ _ (by decide)⟩

/-- Witness for the amended C5 theorem: the plain run of the conventional
three-row table reaches the root from every genotype within three hops. -/
theorem forest_reaches_root_amended_witness :
    runMappingE core0 0 tblA [] = .ok mapA ∧
    ∀ g ∈ List.map Prod.fst tblA, ∃ t ≤ (tblA : Table).length,
      ∀ s, t ≤ s → iterFrom mapA g s = "genotype-0" :=
  ⟨except_eq_ok_of_toOption _ _ (by decide),
    forest_reaches_root_amended core0 0 ("genotype-0", [9, 9, 9])
      [("genotype-1", [1, 2, 3]), ("genotype-2", [1, 1, 2])] [] mapA rfl
      (by decide) (by decide) (fun _ => by show (1 : ℚ) < 100; norm_num)
      (except_eq_ok_of_toOption _ _ (by decide))⟩

/-- Witness for the C6 theorem on a concrete graph with a priority tie:
the candidate recorded first among the tied maxima is returned. -/
theorem get_highest_priority_earliest_max_witness :
    ((⟨"root", ["root", "A"],
        [⟨"A", "C", 7⟩, ⟨"A", "D", 7⟩, ⟨"A", "E", 3⟩]⟩ : Ancestry).nests.filter
      (fun e2 => e2.src = "A")) ≠ [] ∧
    ∃ e pre post,
      (⟨"root", ["root", "A"],
        [⟨"A", "C", 7⟩, ⟨"A", "D", 7⟩, ⟨"A", "E", 3⟩]⟩ : Ancestry).get_highest_priority "A" =
        .ok e.dst ∧
      ((⟨"root", ["root", "A"],
        [⟨"A", "C", 7⟩, ⟨"A", "D", 7⟩, ⟨"A", "E", 3⟩]⟩ : Ancestry).nests.filter
          (fun e2 => e2.src = "A")) = pre ++ e :: post ∧
      (∀ x ∈ (⟨"root", ["root", "A"],
        [⟨"A", "C", 7⟩, ⟨"A", "D", 7⟩, ⟨"A", "E", 3⟩]⟩ : Ancestry).nests.filter
          (fun e2 => e2.src = "A"), x.pri ≤ e.pri) ∧
      (∀ x ∈ pre, x.pri < e.pri) :=
  ⟨by decide,
    get_highest_priority_earliest_max
      ⟨"root", ["root", "A"], [⟨"A", "C", 7⟩, ⟨"A", "D", 7⟩, ⟨"A", "E", 3⟩]⟩ "A" (by decide)⟩

/-- Witness for the C8 theorem with a concrete rejected method name. -/
theorem invalid_method_config_error_witness :
    (⟨"banana", false, 0, none⟩ : ProgramOptions).method ∉ ACCEPTED_METHODS ∧
    (parse_workflow_options ⟨"banana", false, 0, none⟩ = .error (.valueError ("banana" ++
      " is not a valid option for the --method option. Expected one of [matlab, hierarchy]")) ∧
    workflow core0 ⟨"banana", false, 0, none⟩ tblA = (.error (.valueError ("banana" ++
      " is not a valid option for the --method option. Expected one of [matlab, hierarchy]")),
      [])) :=
  ⟨by decide, invalid_method_config_error core0 ⟨"banana", false, 0, none⟩ tblA (by decide)⟩

/-- Witness for the C9 theorem: two aligned trajectories sharing exactly one
timepoint above the detection limit score all-zero without an error. -/
theorem score_pair_insufficient_data_witness :
    (([1, 0, 0] : List ℚ).length = ([1, 0, 0] : List ℚ).length) ∧
    ((([1, 0, 0] : List ℚ).zip ([1, 0, 0] : List ℚ)).filter
      (fun p => decide ((0 : ℚ) < p.1 ∧ (0 : ℚ) < p.2))).length < 2 ∧
    score_pair core0 0 [1, 0, 0] [1, 0, 0] = .ok ⟨0, 0, 0, 0⟩ :=
  ⟨rfl, by decide, score_pair_insufficient_data core0 0 [1, 0, 0] [1, 0, 0] rfl (by decide)⟩

/-- Witness for the C10 theorem: two successive runs on a fresh instance. -/
theorem run_appends_records_replaces_nests_witness :
    ((LineageWorkflow.run core0 (LineageWorkflow.run core0
        (LineageWorkflow.new 0 1 0 false) tblA []).1 tblW []).1.score_records =
      (LineageWorkflow.new 0 1 0 false).score_records ++
        (runE core0 (LineageWorkflow.new 0 1 0 false).dlimit tblA []).records ++
        (runE core0 (LineageWorkflow.new 0 1 0 false).dlimit tblW []).records) ∧
    (tblW : Table) ≠ [] ∧
    ((LineageWorkflow.run core0 (LineageWorkflow.run core0
        (LineageWorkflow.new 0 1 0 false) tblA []).1 tblW []).1.genotype_nests =
      (runE core0 (LineageWorkflow.new 0 1 0 false).dlimit tblW []).nests) :=
  ⟨(run_appends_records_replaces_nests core0 (LineageWorkflow.new 0 1 0 false)
      tblA tblW [] []).1,
    by decide,
    (run_appends_records_replaces_nests core0 (LineageWorkflow.new 0 1 0 false)
      tblA tblW [] []).2 (by decide)⟩

end Lolipop
